import Mathlib

set_option autoImplicit false

/-!
# Maze3D: maze generation, mesh and minimap derivation, collision

Shallow embedding of `Maze.cpp`.  The grid size `N` (a `constexpr int`, 10 in the
source) is a parameter.  The global `std::vector<Cell> maze` is a `List Cell`
addressed through `idx`.  The `std::mt19937` generator is an explicit stream
`rng : Nat → Nat` whose `k`-th value is the result of the `k`-th call `rng()`.
An access `maze[i]` outside the vector, or `walls[d]` outside `0..3`, is a fault
and is modelled by `none`.  The C types `int` and `unsigned` are modelled by `Int`
and `Nat` without wrap-around: every value computed is bounded by `16 * N * N + 12`,
far below `2^31` for a grid that the program can hold (`N = 10` gives `1612`).
-/

namespace Maze3D

/-! ## Grid model -/

/-- Maze cell (`struct Cell`): `walls` indexed L, B, R, T, all standing initially,
and the `visited` mark of the generator. -/
structure Cell where
  walls : Fin 4 → Bool := fun _ => true
  visited : Bool := false

instance : Inhabited Cell := ⟨{}⟩

/-- Flatten 2D to 1D (`idx`), on C `int`s. -/
def idx (N : Nat) (x y : Int) : Int := y * (N : Int) + x

/-- Checked read `maze[i]`. -/
def readCell (maze : List Cell) (i : Int) : Option Cell :=
  if 0 ≤ i then maze[i.toNat]? else none

/-- Checked write `maze[i] = c`. -/
def writeCell (maze : List Cell) (i : Int) (c : Cell) : Option (List Cell) :=
  if 0 ≤ i ∧ i.toNat < maze.length then some (maze.set i.toNat c) else none

/-- Checked conversion of a C `int` direction to a subscript of `walls[4]`. -/
def toDir (d : Int) : Option (Fin 4) :=
  if h : 0 ≤ d ∧ d < 4 then some ⟨d.toNat, by omega⟩ else none

/-- The C expression `(d == 2) - (d == 0)`. -/
def dxOf (d : Int) : Int := (if d = 2 then 1 else 0) - (if d = 0 then 1 else 0)

/-- The C expression `(d == 3) - (d == 1)`. -/
def dyOf (d : Int) : Int := (if d = 3 then 1 else 0) - (if d = 1 then 1 else 0)

/-! ## Maze generator -/

/-- State of the loop of `generateMaze`: the grid, the stack `st` (top first) and
the number of calls of `rng()` made so far. -/
structure GenState where
  maze : List Cell
  st : List (Int × Int)
  draws : Nat

/-- One guarded probe `if (guard && !maze[idx(x, y)].visited) dirs.push_back(d)`;
the cell is read only when the guard holds (`&&` short-circuits). -/
def probe (N : Nat) (maze : List Cell) (guard : Bool) (x y d : Int)
    (dirs : List Int) : Option (List Int) :=
  if guard then
    (readCell maze (idx N x y)).map fun c => if !c.visited then dirs ++ [d] else dirs
  else some dirs

/-- The four probes that fill `dirs` for the cell `(x, y)` on top of the stack. -/
def candidates (N : Nat) (maze : List Cell) (x y : Int) : Option (List Int) := do
  let dirs ← probe N maze (decide (x > 0)) (x - 1) y 0 []
  let dirs ← probe N maze (decide (y > 0)) x (y - 1) 1 dirs
  let dirs ← probe N maze (decide (x < (N : Int) - 1)) (x + 1) y 2 dirs
  probe N maze (decide (y < (N : Int) - 1)) x (y + 1) 3 dirs

/-- Statement `maze[idx(x, y)].walls[d] = false`. -/
def clearWall (N : Nat) (maze : List Cell) (x y d : Int) : Option (List Cell) := do
  let i ← toDir d
  let c ← readCell maze (idx N x y)
  writeCell maze (idx N x y) { c with walls := Function.update c.walls i false }

/-- Statement `maze[idx(x, y)].visited = true`. -/
def markVisited (N : Nat) (maze : List Cell) (x y : Int) : Option (List Cell) := do
  let c ← readCell maze (idx N x y)
  writeCell maze (idx N x y) { c with visited := true }

/-- One iteration of the `while (!st.empty())` loop, entered with a non-empty
stack; on the empty stack the loop has exited and the state stays. -/
def step (N : Nat) (rng : Nat → Nat) (s : GenState) : Option GenState :=
  match s.st with
  | [] => some s
  | (x, y) :: rest => do
    let dirs ← candidates N s.maze x y
    if dirs.isEmpty then
      some { s with st := rest }
    else
      let d ← dirs[rng s.draws % dirs.length]?
      let nx := x + dxOf d
      let ny := y + dyOf d
      let m ← clearWall N s.maze x y d
      let m ← clearWall N m nx ny ((d + 2) % 4)
      let m ← markVisited N m nx ny
      some { maze := m, st := (nx, ny) :: (x, y) :: rest, draws := s.draws + 1 }

/-- State after at most `n` iterations of the loop. -/
def iter (N : Nat) (rng : Nat → Nat) : Nat → GenState → Option GenState
  | 0, s => some s
  | n + 1, s => (iter N rng n s).bind (step N rng)

/-- State on entry to the loop: `maze.assign(N * N, Cell())`, mark the start cell,
push it.  The previous content `old` of the global grid is discarded. -/
def initState (N : Nat) (_old : List Cell) (sx sy : Int) : Option GenState := do
  let m ← markVisited N (List.replicate (N * N) ({} : Cell)) sx sy
  some { maze := m, st := [(sx, sy)], draws := 0 }

/-- The function `generateMaze(sx, sy)` run for at most `fuel` loop iterations:
the new content of the global grid, `none` on a fault or when the loop has not
exited within `fuel` iterations. -/
def generateMaze (N : Nat) (old : List Cell) (sx sy : Int) (rng : Nat → Nat)
    (fuel : Nat) : Option (List Cell) := do
  let s0 ← initState N old sx sy
  let s ← iter N rng fuel s0
  if s.st.isEmpty then some s.maze else none

/-! ## Specification vocabulary for the generator -/

/-- Cell coordinates inside the grid: `0 ≤ x, y < N`. -/
def InB (N : Nat) (x y : Int) : Prop := 0 ≤ x ∧ x < (N : Int) ∧ 0 ≤ y ∧ y < (N : Int)

instance (N : Nat) (x y : Int) : Decidable (InB N x y) := by
  unfold InB; infer_instance

/-- The cell stored for `(x, y)`; a fresh cell stands in when the access would
leave the vector (never the case for in-grid coordinates of an `N * N` grid). -/
def cellAt (N : Nat) (maze : List Cell) (x y : Int) : Cell :=
  (readCell maze (idx N x y)).getD {}

/-- Open passage from cell `a` to the adjacent cell `b`: both are in the grid, `b`
is the neighbour of `a` in some direction `d`, and neither side of the shared
boundary has its wall standing. -/
def passage (N : Nat) (maze : List Cell) (a b : Int × Int) : Prop :=
  InB N a.1 a.2 ∧ InB N b.1 b.2 ∧
    ∃ d : Fin 4, b = (a.1 + dxOf (d.val : Int), a.2 + dyOf (d.val : Int)) ∧
      (cellAt N maze a.1 a.2).walls d = false ∧
      (cellAt N maze b.1 b.2).walls (d + 2) = false

/-- The passage graph is connected over all `N * N` cells. -/
def Connected (N : Nat) (maze : List Cell) : Prop :=
  ∀ a b : Int × Int, InB N a.1 a.2 → InB N b.1 b.2 →
    Relation.ReflTransGen (passage N maze) a b

/-- Open passages between horizontally adjacent cells `(x, y)` and `(x + 1, y)`,
each named by its left cell. -/
def hEdges (N : Nat) (maze : List Cell) : Finset (Int × Int) :=
  (Finset.Ico (0 : Int) ((N : Int) - 1) ×ˢ Finset.Ico (0 : Int) (N : Int)).filter
    fun p => (cellAt N maze p.1 p.2).walls 2 = false ∧
      (cellAt N maze (p.1 + 1) p.2).walls 0 = false

/-- Open passages between vertically adjacent cells `(x, y)` and `(x, y + 1)`,
each named by its lower cell. -/
def vEdges (N : Nat) (maze : List Cell) : Finset (Int × Int) :=
  (Finset.Ico (0 : Int) (N : Int) ×ˢ Finset.Ico (0 : Int) ((N : Int) - 1)).filter
    fun p => (cellAt N maze p.1 p.2).walls 3 = false ∧
      (cellAt N maze p.1 (p.2 + 1)).walls 1 = false

/-- Number of edges of the passage graph. -/
def edgeCount (N : Nat) (maze : List Cell) : Nat :=
  (hEdges N maze).card + (vEdges N maze).card

/-- The in-grid cells marked visited. -/
def visitedCells (N : Nat) (maze : List Cell) : Finset (Int × Int) :=
  (Finset.Ico (0 : Int) (N : Int) ×ˢ Finset.Ico (0 : Int) (N : Int)).filter
    fun p => (cellAt N maze p.1 p.2).visited = true

/-- Shared-wall symmetry of a grid: RIGHT of `(x, y)` equals LEFT of `(x + 1, y)`
and TOP of `(x, y)` equals BOTTOM of `(x, y + 1)`. -/
def WallsAgree (N : Nat) (maze : List Cell) : Prop :=
  ∀ x y : Int, InB N x y →
    (InB N (x + 1) y →
      (cellAt N maze x y).walls 2 = (cellAt N maze (x + 1) y).walls 0) ∧
    (InB N x (y + 1) →
      (cellAt N maze x y).walls 3 = (cellAt N maze x (y + 1)).walls 1)

/-- The boundary of cell `(x, y)` in direction `d` is open on both of its sides. -/
def openDir (N : Nat) (maze : List Cell) (x y : Int) (d : Fin 4) : Prop :=
  (cellAt N maze x y).walls d = false ∧
    (cellAt N maze (x + dxOf ((d.val : Nat) : Int)) (y + dyOf ((d.val : Nat) : Int))).walls
      (d + 2) = false

/-- Grid `m` is grid `maze` after the carve of one loop iteration from `(x, y)` in
direction `d`: wall `d` of `(x, y)` and the opposite wall of the neighbour are
cleared, the neighbour is marked visited, and nothing else changes. -/
def Carved (N : Nat) (maze m : List Cell) (x y : Int) (d : Fin 4) : Prop :=
  (∀ a b, InB N a b → ∀ e : Fin 4,
    (cellAt N m a b).walls e =
      if (a = x ∧ b = y ∧ e = d) ∨
          (a = x + dxOf ((d.val : Nat) : Int) ∧ b = y + dyOf ((d.val : Nat) : Int) ∧
            e = d + 2)
      then false else (cellAt N maze a b).walls e) ∧
  (∀ a b, InB N a b →
    (cellAt N m a b).visited =
      if a = x + dxOf ((d.val : Nat) : Int) ∧ b = y + dyOf ((d.val : Nat) : Int)
      then true else (cellAt N maze a b).visited)

/-- Invariant of the loop of `generateMaze` started at `(sx, sy)`. -/
structure GenInv (N : Nat) (sx sy : Int) (s : GenState) : Prop where
  len : s.maze.length = N * N
  start : InB N sx sy ∧ (cellAt N s.maze sx sy).visited = true
  stack : ∀ p ∈ s.st, InB N p.1 p.2 ∧ (cellAt N s.maze p.1 p.2).visited = true
  agree : WallsAgree N s.maze
  fresh : ∀ x y, InB N x y → (cellAt N s.maze x y).visited = false →
    ∀ e : Fin 4, (cellAt N s.maze x y).walls e = true
  border : ∀ x y, InB N x y → ∀ e : Fin 4,
    ¬ InB N (x + dxOf ((e.val : Nat) : Int)) (y + dyOf ((e.val : Nat) : Int)) →
    (cellAt N s.maze x y).walls e = true
  closed : ∀ x y, InB N x y → (cellAt N s.maze x y).visited = true → (x, y) ∉ s.st →
    ∀ e : Fin 4, InB N (x + dxOf ((e.val : Nat) : Int)) (y + dyOf ((e.val : Nat) : Int)) →
    (cellAt N s.maze (x + dxOf ((e.val : Nat) : Int))
      (y + dyOf ((e.val : Nat) : Int))).visited = true
  reach : ∀ x y, InB N x y → (cellAt N s.maze x y).visited = true →
    Relation.ReflTransGen (passage N s.maze) (sx, sy) (x, y)
  edges : edgeCount N s.maze + 1 = (visitedCells N s.maze).card
  draws : s.draws + 1 = (visitedCells N s.maze).card


/-! ## Mesh builder

The `float` components written by `buildMesh` and `buildMinimap` are sums of cell
coordinates, `0`, `1` and `N`: integers, which `float` represents exactly, so they
are modelled by `Int`.  Vertex indices and `off` are `unsigned` and are modelled
by `Nat`. -/

/-- The type `glm::vec3` restricted to integer-valued components. -/
structure Vec3 where
  x : Int
  y : Int
  z : Int
deriving DecidableEq, Repr

instance : Add Vec3 := ⟨fun a b => ⟨a.x + b.x, a.y + b.y, a.z + b.z⟩⟩

/-- The buffers `verts` (five floats per vertex) and `inds`, and the local `off`
of `buildMesh`. -/
structure MeshBuf where
  verts : List Int
  inds : List Nat
  off : Nat
deriving DecidableEq, Repr

/-- The lambda `q` of `buildMesh`: appends the four vertices `a, b, c, d`, vertex
`i` with texture coordinates `((i == 0 || i == 3) ? 0 : 1, (i < 2) ? 0 : 1)`, then
the six indices of two triangles, and advances `off` by four. -/
def q (m : MeshBuf) (a b c d : Vec3) : MeshBuf :=
  { verts := ([a, b, c, d].enum).foldl
      (fun vs ip => vs ++ [ip.2.x, ip.2.y, ip.2.z,
        (if ip.1 = 0 ∨ ip.1 = 3 then 0 else 1), (if ip.1 < 2 then 0 else 1)]) m.verts
    inds := m.inds ++ [m.off, m.off + 1, m.off + 2, m.off, m.off + 2, m.off + 3]
    off := m.off + 4 }

/-- Body of the cell loop of `buildMesh` for the cell `c` at `(x, y)`: one quad
per standing wall, in the order LEFT, BOTTOM, RIGHT, TOP. -/
def cellQuads (x y : Int) (c : Cell) (m : MeshBuf) : MeshBuf :=
  let base : Vec3 := ⟨x, 0, y⟩
  let m := if c.walls 0 then
    q m base (base + ⟨0, 1, 0⟩) (base + ⟨0, 1, 1⟩) (base + ⟨0, 0, 1⟩) else m
  let m := if c.walls 1 then
    q m base (base + ⟨1, 0, 0⟩) (base + ⟨1, 1, 0⟩) (base + ⟨0, 1, 0⟩) else m
  let m := if c.walls 2 then
    q m (base + ⟨1, 0, 1⟩) (base + ⟨1, 1, 1⟩) (base + ⟨1, 1, 0⟩) (base + ⟨1, 0, 0⟩) else m
  if c.walls 3 then
    q m (base + ⟨0, 0, 1⟩) (base + ⟨0, 1, 1⟩) (base + ⟨1, 1, 1⟩) (base + ⟨1, 0, 1⟩) else m

/-- Iteration order of `for (y = 0; y < N; y++) for (x = 0; x < N; x++)`. -/
def cellOrder (N : Nat) : List (Int × Int) :=
  (List.range N).flatMap fun (y : Nat) => (List.range N).map fun (x : Nat) => ((x : Int), (y : Int))

/-- The array `e[8]` of `buildMesh`: the corners of the exit cube. -/
def exitCorners (N : Nat) : List Vec3 :=
  let e0 : Vec3 := ⟨(N : Int) - 1, 0, (N : Int) - 1⟩
  [e0, e0 + ⟨1, 0, 0⟩, e0 + ⟨1, 1, 0⟩, e0 + ⟨0, 1, 0⟩, e0 + ⟨0, 0, 1⟩, e0 + ⟨1, 0, 1⟩,
    e0 + ⟨1, 1, 1⟩, e0 + ⟨0, 1, 1⟩]

/-- The array `iidx[36]` of `buildMesh`. -/
def iidx : List Nat :=
  [0, 1, 2, 0, 2, 3, 1, 5, 6, 1, 6, 2, 5, 4, 7, 5, 7, 6,
    4, 0, 3, 4, 3, 7, 3, 2, 6, 3, 6, 7, 4, 5, 1, 4, 1, 0]

/-- The function `buildMesh` up to the upload of the buffers: the wall quads of
all cells, the floor quad, then the 36 exit indices `off + iidx[i]`.  The array
`e[8]` is computed by the source and is not written to `verts`; the source has no
statement that appends it. -/
def buildMesh (N : Nat) (maze : List Cell) : Option MeshBuf := do
  let m ← (cellOrder N).foldlM
    (fun m p => (readCell maze (idx N p.1 p.2)).map fun c => cellQuads p.1 p.2 c m)
    ({ verts := [], inds := [], off := 0 } : MeshBuf)
  let m := q m ⟨0, 0, 0⟩ ⟨N, 0, 0⟩ ⟨N, 0, N⟩ ⟨0, 0, N⟩
  let _e := exitCorners N
  some { m with inds := iidx.foldl (fun inds i => inds ++ [m.off + i]) m.inds }

/-! ## Minimap builder -/

/-- Body of the cell loop of `buildMinimap` for the cell `c` at `(x, y)`. -/
def cellSegments (x y : Int) (c : Cell) (mv : List Int) : List Int :=
  let fx := x
  let fy := y
  let mv := if c.walls 0 then mv ++ [fx, fy, fx, fy + 1] else mv
  let mv := if c.walls 1 then mv ++ [fx, fy, fx + 1, fy] else mv
  let mv := if c.walls 2 then mv ++ [fx + 1, fy, fx + 1, fy + 1] else mv
  if c.walls 3 then mv ++ [fx, fy + 1, fx + 1, fy + 1] else mv

/-- The function `buildMinimap` up to the upload: the content of `miniVerts`. -/
def buildMinimap (N : Nat) (maze : List Cell) : Option (List Int) :=
  (cellOrder N).foldlM
    (fun mv p => (readCell maze (idx N p.1 p.2)).map fun c => cellSegments p.1 p.2 c mv) []

/-! ## Specification vocabulary for the derived buffers -/

/-- Number of standing walls of one cell. -/
def wallCount (c : Cell) : Nat :=
  (List.finRange 4).countP c.walls

/-- Number `W` of wall flags set to `true`, over all cells of the grid and all
four directions. -/
def standingWalls (maze : List Cell) : Nat :=
  (maze.map wallCount).sum

/-- The standing wall flags `(x, y, d)` of the grid in the order in which the
builders meet them: cells in row-major order, directions LEFT, BOTTOM, RIGHT, TOP. -/
def standingSlots (N : Nat) (maze : List Cell) : List (Int × Int × Fin 4) :=
  (cellOrder N).flatMap fun p =>
    ((List.finRange 4).filter (cellAt N maze p.1 p.2).walls).map fun d => (p.1, p.2, d)

/-- Four corners in the order in which `q` receives them. -/
structure Quad where
  a : Vec3
  b : Vec3
  c : Vec3
  d : Vec3
deriving DecidableEq, Repr

/-- The arguments of the call of `q` for wall `d` of the cell `(x, y)`, with the
sums `base + glm::vec3(..)` carried out. -/
def wallQuad (x y : Int) (d : Fin 4) : Quad :=
  match d with
  | 0 => ⟨⟨x, 0, y⟩, ⟨x, 1, y⟩, ⟨x, 1, y + 1⟩, ⟨x, 0, y + 1⟩⟩
  | 1 => ⟨⟨x, 0, y⟩, ⟨x + 1, 0, y⟩, ⟨x + 1, 1, y⟩, ⟨x, 1, y⟩⟩
  | 2 => ⟨⟨x + 1, 0, y + 1⟩, ⟨x + 1, 1, y + 1⟩, ⟨x + 1, 1, y⟩, ⟨x + 1, 0, y⟩⟩
  | 3 => ⟨⟨x, 0, y + 1⟩, ⟨x, 1, y + 1⟩, ⟨x + 1, 1, y + 1⟩, ⟨x + 1, 0, y + 1⟩⟩

/-- The arguments of the call of `q` for the floor. -/
def floorQuad (N : Nat) : Quad :=
  ⟨⟨0, 0, 0⟩, ⟨N, 0, 0⟩, ⟨N, 0, N⟩, ⟨0, 0, N⟩⟩

/-- The twenty floats that one call of `q` appends to `verts`. -/
def quadRow (g : Quad) : List Int :=
  [g.a.x, g.a.y, g.a.z, 0, 0, g.b.x, g.b.y, g.b.z, 1, 0,
    g.c.x, g.c.y, g.c.z, 1, 1, g.d.x, g.d.y, g.d.z, 0, 1]

/-- The six indices of the `k`-th quad. -/
def sixOf (k : Nat) : List Nat :=
  [4 * k, 4 * k + 1, 4 * k + 2, 4 * k, 4 * k + 2, 4 * k + 3]

/-- The buffers hold exactly the quads `quads`, in this order. -/
def MeshShape (quads : List Quad) (m : MeshBuf) : Prop :=
  m.verts = quads.flatMap quadRow ∧
    m.inds = (List.range quads.length).flatMap sixOf ∧
    m.off = 4 * quads.length

/-- Corner of the unit square of wall `d` of cell `(x, y)`, one unit tall: LEFT at
fixed `x` with `z` in `{y, y + 1}`, RIGHT at fixed `x + 1` with `z` in `{y, y + 1}`,
BOTTOM at fixed `z = y` with `x` in `{x, x + 1}`, TOP at fixed `z = y + 1` with `x`
in `{x, x + 1}`; heights `0` and `1`. -/
def IsWallCorner (x y : Int) (d : Fin 4) (v : Vec3) : Prop :=
  (v.y = 0 ∨ v.y = 1) ∧
    match d with
    | 0 => v.x = x ∧ (v.z = y ∨ v.z = y + 1)
    | 1 => v.z = y ∧ (v.x = x ∨ v.x = x + 1)
    | 2 => v.x = x + 1 ∧ (v.z = y ∨ v.z = y + 1)
    | 3 => v.z = y + 1 ∧ (v.x = x ∨ v.x = x + 1)

/-- The `k`-th vertex of a vertex buffer: position and texture coordinates, when
the buffer holds five floats at offset `5 * k`. -/
def vertexAt (verts : List Int) (k : Nat) : Option (Vec3 × Int × Int) :=
  match (verts.drop (5 * k)).take 5 with
  | [x, y, z, u, v] => some (⟨x, y, z⟩, u, v)
  | _ => none

/-- The segment that the specification of the minimap gives for a standing wall. -/
def segmentOf (x y : Int) (d : Fin 4) : List Int :=
  match d with
  | 0 => [x, y, x, y + 1]
  | 1 => [x, y, x + 1, y]
  | 2 => [x + 1, y, x + 1, y + 1]
  | 3 => [x, y + 1, x + 1, y + 1]

/-- The segment list of the specification of the minimap: the concatenation, over
cells in row-major order and directions LEFT, BOTTOM, RIGHT, TOP, of one segment
per standing wall. -/
def minimapSpec (N : Nat) (maze : List Cell) : List Int :=
  (cellOrder N).flatMap fun p =>
    (List.finRange 4).flatMap fun d =>
      if (cellAt N maze p.1 p.2).walls d then segmentOf p.1 p.2 d else []

/-! ## Collision system

The collision test is modelled over exact rational arithmetic: a `float` is a
rational number, `0.2f`, `0.01f`, `0.5f` and `1.5f` are `1/5`, `1/100`, `1/2` and
`3/2`, and no rounding takes place. -/

/-- The type `glm::vec3` over the rationals. -/
structure VecQ where
  x : ℚ
  y : ℚ
  z : ℚ

/-- AABB overlap (`AABBvsAABB`). -/
def AABBvsAABB (minA maxA minB maxB : VecQ) : Bool :=
  (decide (minA.x ≤ maxB.x) && decide (maxA.x ≥ minB.x)) &&
    (decide (minA.y ≤ maxB.y) && decide (maxA.y ≥ minB.y)) &&
    (decide (minA.z ≤ maxB.z) && decide (maxA.z ≥ minB.z))

/-- The conversion `int(f)`: truncation toward zero. -/
def truncQ (v : ℚ) : Int := if 0 ≤ v then ⌊v⌋ else ⌈v⌉

/-- The four wall tests of `collidesWithMaze` for the cell `c` at `(x, y)`: `true`
when one of them executes `return true`. -/
def cellHit (minC maxC : VecQ) (x y : Int) (c : Cell) : Bool :=
  let base : VecQ := ⟨x, 0, y⟩
  if c.walls 0 && AABBvsAABB minC maxC ⟨base.x, 0, base.z⟩
      ⟨base.x + 1 / 100, 1, base.z + 1⟩ then true
  else if c.walls 1 && AABBvsAABB minC maxC ⟨base.x, 0, base.z⟩
      ⟨base.x + 1, 1, base.z + 1 / 100⟩ then true
  else if c.walls 2 && AABBvsAABB minC maxC ⟨base.x + 1 - 1 / 100, 0, base.z⟩
      ⟨base.x + 1, 1, base.z + 1⟩ then true
  else if c.walls 3 && AABBvsAABB minC maxC ⟨base.x, 0, base.z + 1 - 1 / 100⟩
      ⟨base.x + 1, 1, base.z + 1⟩ then true
  else false

/-- The cells `(cx + dx, cy + dy)` met by
`for (dy = -1; dy <= 1; dy++) for (dx = -1; dx <= 1; dx++)`, in this order. -/
def neighbourhood (cx cy : Int) : List (Int × Int) :=
  ([-1, 0, 1] : List Int).flatMap fun dy =>
    ([-1, 0, 1] : List Int).map fun dx => (cx + dx, cy + dy)

/-- The loop of `collidesWithMaze` over the remaining cells: cells outside the
grid are skipped (`continue`), the first hit returns `true`, the end of the loop
returns `false`. -/
def scanCells (N : Nat) (maze : List Cell) (minC maxC : VecQ) :
    List (Int × Int) → Option Bool
  | [] => some false
  | (x, y) :: rest =>
    if x < 0 ∨ y < 0 ∨ x ≥ (N : Int) ∨ y ≥ (N : Int) then scanCells N maze minC maxC rest
    else
      (readCell maze (idx N x y)).bind fun c =>
        if cellHit minC maxC x y c then some true else scanCells N maze minC maxC rest

/-- Lower corner `minC` of the agent box at `pos`. -/
def agentMin (pos : VecQ) : VecQ := ⟨pos.x - 1 / 5, pos.y - 1 / 2, pos.z - 1 / 5⟩

/-- Upper corner `maxC` of the agent box at `pos`. -/
def agentMax (pos : VecQ) : VecQ := ⟨pos.x + 1 / 5, pos.y + 3 / 2, pos.z + 1 / 5⟩

/-- Per-wall collision (`collidesWithMaze`). -/
def collidesWithMaze (N : Nat) (maze : List Cell) (pos : VecQ) : Option Bool :=
  let cx := truncQ pos.x
  let cy := truncQ pos.z
  scanCells N maze (agentMin pos) (agentMax pos) (neighbourhood cx cy)

/-! ## Specification vocabulary for the collision system -/

/-- Lower corner of the slab of wall `d` of the cell `(x, y)`: thickness `1/100`,
unit extent along the wall, height `0..1`. -/
def slabMin (x y : Int) (d : Fin 4) : VecQ :=
  match d with
  | 0 => ⟨x, 0, y⟩
  | 1 => ⟨x, 0, y⟩
  | 2 => ⟨x + 1 - 1 / 100, 0, y⟩
  | 3 => ⟨x, 0, y + 1 - 1 / 100⟩

/-- Upper corner of the slab of wall `d` of the cell `(x, y)`. -/
def slabMax (x y : Int) (d : Fin 4) : VecQ :=
  match d with
  | 0 => ⟨x + 1 / 100, 1, y + 1⟩
  | 1 => ⟨x + 1, 1, y + 1 / 100⟩
  | 2 => ⟨x + 1, 1, y + 1⟩
  | 3 => ⟨x + 1, 1, y + 1⟩

/-- Signed gap between the intervals `[loA, hiA]` and `[loB, hiB]`: positive when
they are apart, zero when they touch at an end point, negative when they overlap. -/
def gapAxis (loA hiA loB hiB : ℚ) : ℚ := max (loB - hiA) (loA - hiB)

/-- Gap between the boxes `[minA, maxA]` and `[minB, maxB]`: the largest of the
three axis gaps.  It is positive when the boxes are apart, zero when they touch
(share boundary points only) and negative when their interiors overlap. -/
def boxGap (minA maxA minB maxB : VecQ) : ℚ :=
  max (max (gapAxis minA.x maxA.x minB.x maxB.x) (gapAxis minA.y maxA.y minB.y maxB.y))
    (gapAxis minA.z maxA.z minB.z maxB.z)

/-- The naive collision scan: the agent box at `pos` is tested against the slab
of every standing wall of every one of the `N * N` cells. -/
def collidesNaive (N : Nat) (maze : List Cell) (pos : VecQ) : Bool :=
  (cellOrder N).any fun p =>
    (List.finRange 4).any fun d =>
      (cellAt N maze p.1 p.2).walls d &&
        AABBvsAABB (agentMin pos) (agentMax pos) (slabMin p.1 p.2 d) (slabMax p.1 p.2 d)

/-! ## Movement step of `processInput`

The vectors `flatFront` and `right` are the values that `glm::normalize` returns
in the source; they are inputs of the model, which has no square root. -/

instance : Add VecQ := ⟨fun a b => ⟨a.x + b.x, a.y + b.y, a.z + b.z⟩⟩

instance : Sub VecQ := ⟨fun a b => ⟨a.x - b.x, a.y - b.y, a.z - b.z⟩⟩

/-- The product `speed * v` of a scalar and a `glm::vec3`. -/
def scaleQ (k : ℚ) (v : VecQ) : VecQ := ⟨k * v.x, k * v.y, k * v.z⟩

/-- The states of the keys W, S, D, A read by `processInput` (`true` is
`GLFW_PRESS`). -/
structure Keys where
  w : Bool
  s : Bool
  d : Bool
  a : Bool

/-- The value of `cameraPos` when `processInput` reaches the collision test: the
candidate position. -/
def moveCandidate (cameraPos : VecQ) (deltaTime : ℚ) (flatFront right : VecQ)
    (keys : Keys) : VecQ :=
  let speed := 5 / 2 * deltaTime
  let p := cameraPos
  let p := if keys.w then p + scaleQ speed flatFront else p
  let p := if keys.s then p - scaleQ speed flatFront else p
  let p := if keys.d then p + scaleQ speed right else p
  if keys.a then p - scaleQ speed right else p

/-- The movement step of `processInput` (from `float speed` to the statement
`if (collidesWithMaze(cameraPos)) cameraPos = oldPos;`): the new `cameraPos`. -/
def processInput (N : Nat) (maze : List Cell) (cameraPos : VecQ) (deltaTime : ℚ)
    (flatFront right : VecQ) (keys : Keys) : Option VecQ :=
  let oldPos := cameraPos
  let cand := moveCandidate cameraPos deltaTime flatFront right keys
  (collidesWithMaze N maze cand).map fun hit => if hit then oldPos else cand

/-! ## Specification vocabulary for the winding of the wall quads -/

instance : Sub Vec3 := ⟨fun a b => ⟨a.x - b.x, a.y - b.y, a.z - b.z⟩⟩

/-- Cross product of two vectors. -/
def cross (a b : Vec3) : Vec3 :=
  ⟨a.y * b.z - a.z * b.y, a.z * b.x - a.x * b.z, a.x * b.y - a.y * b.x⟩

/-- Normal `(b - a) × (c - a)` of the triangle `(a, b, c)`. -/
def triNormal (a b c : Vec3) : Vec3 := cross (b - a) (c - a)

/-- Unit vector from wall `d` of a cell into the interior of that cell: the
opposite of the step `(dxOf d, dyOf d)` from the cell to its neighbour across the
wall, world `z` being grid `y`. -/
def inwardNormal (d : Fin 4) : Vec3 :=
  ⟨-dxOf ((d.val : Nat) : Int), 0, -dyOf ((d.val : Nat) : Int)⟩

/-! ## Generator with every access checked against the grid

A copy of the generator in which an access `maze[idx(x, y)]` is a fault unless
`0 ≤ x, y < N`, and the modulus `rng() % dirs.size()` is a fault when
`dirs.size()` is zero. -/

/-- Read of `maze[idx(x, y)]`, a fault unless `(x, y)` is a cell of the grid. -/
def readAt (N : Nat) (maze : List Cell) (x y : Int) : Option Cell :=
  if InB N x y then readCell maze (idx N x y) else none

/-- Checked form of `probe`. -/
def probeChecked (N : Nat) (maze : List Cell) (guard : Bool) (x y d : Int)
    (dirs : List Int) : Option (List Int) :=
  if guard then
    (readAt N maze x y).map fun c => if !c.visited then dirs ++ [d] else dirs
  else some dirs

/-- Checked form of `candidates`. -/
def candidatesChecked (N : Nat) (maze : List Cell) (x y : Int) : Option (List Int) := do
  let dirs ← probeChecked N maze (decide (x > 0)) (x - 1) y 0 []
  let dirs ← probeChecked N maze (decide (y > 0)) x (y - 1) 1 dirs
  let dirs ← probeChecked N maze (decide (x < (N : Int) - 1)) (x + 1) y 2 dirs
  probeChecked N maze (decide (y < (N : Int) - 1)) x (y + 1) 3 dirs

/-- Checked form of `clearWall`. -/
def clearWallChecked (N : Nat) (maze : List Cell) (x y d : Int) : Option (List Cell) := do
  let i ← toDir d
  let c ← readAt N maze x y
  writeCell maze (idx N x y) { c with walls := Function.update c.walls i false }

/-- Checked form of `markVisited`. -/
def markVisitedChecked (N : Nat) (maze : List Cell) (x y : Int) : Option (List Cell) := do
  let c ← readAt N maze x y
  writeCell maze (idx N x y) { c with visited := true }

/-- Checked form of `step`. -/
def stepChecked (N : Nat) (rng : Nat → Nat) (s : GenState) : Option GenState :=
  match s.st with
  | [] => some s
  | (x, y) :: rest => do
    let dirs ← candidatesChecked N s.maze x y
    if dirs.isEmpty then
      some { s with st := rest }
    else if dirs.length = 0 then
      none
    else
      let d ← dirs[rng s.draws % dirs.length]?
      let nx := x + dxOf d
      let ny := y + dyOf d
      let m ← clearWallChecked N s.maze x y d
      let m ← clearWallChecked N m nx ny ((d + 2) % 4)
      let m ← markVisitedChecked N m nx ny
      some { maze := m, st := (nx, ny) :: (x, y) :: rest, draws := s.draws + 1 }

/-- Checked form of `iter`. -/
def iterChecked (N : Nat) (rng : Nat → Nat) : Nat → GenState → Option GenState
  | 0, s => some s
  | n + 1, s => (iterChecked N rng n s).bind (stepChecked N rng)

/-- Checked form of `initState`. -/
def initStateChecked (N : Nat) (_old : List Cell) (sx sy : Int) : Option GenState := do
  let m ← markVisitedChecked N (List.replicate (N * N) ({} : Cell)) sx sy
  some { maze := m, st := [(sx, sy)], draws := 0 }

/-! ## Specification of the minimap and of truncation, stated apart from the code -/

/-- The segment list that the specification of the minimap prescribes, written
on the raw vector: rows `y = 0 .. N - 1` outermost, cells `x = 0 .. N - 1` within
a row, directions LEFT, BOTTOM, RIGHT, TOP within a cell; the cell `(x, y)` is
entry `y * N + x` of the vector, and each `true` flag gives its segment. -/
def minimapRowMajor (N : Nat) (maze : List Cell) : List Int :=
  (List.range N).flatMap fun (y : Nat) =>
    (List.range N).flatMap fun (x : Nat) =>
      (List.finRange 4).flatMap fun d =>
        if (maze.getD (y * N + x) {}).walls d then segmentOf (x : Int) (y : Int) d else []

/-- The integer `t` is `v` truncated toward zero: `t` is no larger than `v` in
absolute value and less than one away from it. -/
def IsTruncation (v : ℚ) (t : Int) : Prop :=
  |(t : ℚ)| ≤ |v| ∧ |v - (t : ℚ)| < 1

/-! ## Index arithmetic and grid access -/

theorem idx_bounds {N : Nat} {x y : Int} (h : InB N x y) :
    0 ≤ idx N x y ∧ idx N x y < (N : Int) * (N : Int) := by
  obtain ⟨hx0, hx1, hy0, hy1⟩ := h
  unfold idx
  constructor
  · positivity
  · have h1 : y * (N : Int) ≤ ((N : Int) - 1) * (N : Int) :=
      mul_le_mul_of_nonneg_right (by omega) (by omega)
    nlinarith

theorem idx_inj {N : Nat} {x y a b : Int} (h : InB N x y) (h' : InB N a b)
    (e : idx N x y = idx N a b) : x = a ∧ y = b := by
  obtain ⟨hx0, hx1, hy0, hy1⟩ := h
  obtain ⟨ha0, ha1, hb0, hb1⟩ := h'
  unfold idx at e
  have hN : (0 : Int) < (N : Int) := by omega
  have e1 : (x + y * (N : Int)) % (N : Int) = (a + b * (N : Int)) % (N : Int) := by
    rw [add_comm x, add_comm a, e]
  rw [Int.add_mul_emod_self, Int.add_mul_emod_self, Int.emod_eq_of_lt hx0 hx1,
    Int.emod_eq_of_lt ha0 ha1] at e1
  subst e1
  have e2 : y * (N : Int) = b * (N : Int) := by omega
  exact ⟨rfl, mul_right_cancel₀ (ne_of_gt hN) e2⟩

theorem readCell_eq_some {N : Nat} {maze : List Cell} (hl : maze.length = N * N)
    {x y : Int} (h : InB N x y) :
    readCell maze (idx N x y) = some (cellAt N maze x y) := by
  obtain ⟨h0, h1⟩ := idx_bounds h
  have hlt : (idx N x y).toNat < maze.length := by
    rw [hl]; zify; rw [Int.toNat_of_nonneg h0]; exact h1
  unfold cellAt readCell
  rw [if_pos h0, List.getElem?_eq_getElem hlt]
  rfl

theorem writeCell_spec {N : Nat} {maze : List Cell} (hl : maze.length = N * N)
    {x y : Int} (h : InB N x y) (c : Cell) :
    ∃ m, writeCell maze (idx N x y) c = some m ∧ m.length = N * N ∧
      ∀ a b, InB N a b →
        cellAt N m a b = if a = x ∧ b = y then c else cellAt N maze a b := by
  obtain ⟨h0, h1⟩ := idx_bounds h
  have hlt : (idx N x y).toNat < maze.length := by
    rw [hl]; zify; rw [Int.toNat_of_nonneg h0]; exact h1
  refine ⟨maze.set (idx N x y).toNat c, ?_, by simpa using hl, ?_⟩
  · unfold writeCell; rw [if_pos ⟨h0, hlt⟩]
  · intro a b hab
    obtain ⟨g0, g1⟩ := idx_bounds hab
    unfold cellAt readCell
    rw [if_pos g0, if_pos g0, List.getElem?_set]
    by_cases hxy : a = x ∧ b = y
    · obtain ⟨rfl, rfl⟩ := hxy
      simp [hlt]
    · have hne : (idx N x y).toNat ≠ (idx N a b).toNat := by
        intro e
        apply hxy
        have e' : idx N a b = idx N x y := by
          have := congrArg (fun n : Nat => (n : Int)) e
          simp only [Int.toNat_of_nonneg h0, Int.toNat_of_nonneg g0] at this
          exact this.symm
        exact idx_inj hab h e'
      rw [if_neg hne, if_neg hxy]

theorem probe_spec {N : Nat} {maze : List Cell} (hl : maze.length = N * N)
    (guard : Bool) (x y d : Int) (dirs : List Int) (hg : guard = true → InB N x y) :
    probe N maze guard x y d dirs =
      some (if guard = true ∧ (cellAt N maze x y).visited = false
        then dirs ++ [d] else dirs) := by
  unfold probe
  cases guard with
  | false => simp
  | true =>
    rw [if_pos rfl, readCell_eq_some hl (hg rfl)]
    cases hv : (cellAt N maze x y).visited <;> simp [hv]

theorem toDir_val (i : Fin 4) : toDir ((i.val : Nat) : Int) = some i := by
  unfold toDir
  have h : (0 : Int) ≤ ((i.val : Nat) : Int) ∧ ((i.val : Nat) : Int) < 4 := by omega
  rw [dif_pos h]
  simp

theorem toDir_opp (i : Fin 4) : toDir ((((i.val : Nat) : Int) + 2) % 4) = some (i + 2) := by
  fin_cases i <;> rfl

theorem mem_ite_append (c : Prop) [Decidable c] (l : List Int) (e d : Int) :
    d ∈ (if c then l ++ [e] else l) ↔ d ∈ l ∨ (c ∧ d = e) := by
  split_ifs with h <;> simp [h]

theorem dxOf_zero : dxOf 0 = -1 := by decide
theorem dxOf_one : dxOf 1 = 0 := by decide
theorem dxOf_two : dxOf 2 = 1 := by decide
theorem dxOf_three : dxOf 3 = 0 := by decide
theorem dyOf_zero : dyOf 0 = 0 := by decide
theorem dyOf_one : dyOf 1 = -1 := by decide
theorem dyOf_two : dyOf 2 = 0 := by decide
theorem dyOf_three : dyOf 3 = 1 := by decide

theorem candidates_spec {N : Nat} {maze : List Cell} (hl : maze.length = N * N)
    {x y : Int} (h : InB N x y) :
    ∃ dirs, candidates N maze x y = some dirs ∧
      ∀ d : Int, d ∈ dirs ↔ ∃ i : Fin 4, d = ((i.val : Nat) : Int) ∧
        InB N (x + dxOf d) (y + dyOf d) ∧
        (cellAt N maze (x + dxOf d) (y + dyOf d)).visited = false := by
  obtain ⟨hx0, hx1, hy0, hy1⟩ := h
  unfold candidates
  simp only [Option.bind_eq_bind]
  rw [probe_spec hl _ _ _ _ _ (by intro g; simp at g; unfold InB; omega)]
  simp only [Option.some_bind]
  rw [probe_spec hl _ _ _ _ _ (by intro g; simp at g; unfold InB; omega)]
  simp only [Option.some_bind]
  rw [probe_spec hl _ _ _ _ _ (by intro g; simp at g; unfold InB; omega)]
  simp only [Option.some_bind]
  rw [probe_spec hl _ _ _ _ _ (by intro g; simp at g; unfold InB; omega)]
  refine ⟨_, rfl, ?_⟩
  intro d
  simp only [mem_ite_append, List.not_mem_nil, false_or, decide_eq_true_eq]
  constructor
  · rintro (((⟨⟨g, v⟩, rfl⟩ | ⟨⟨g, v⟩, rfl⟩) | ⟨⟨g, v⟩, rfl⟩) | ⟨⟨g, v⟩, rfl⟩)
    · refine ⟨0, rfl, ?_, ?_⟩
      · simp only [dxOf_zero, dyOf_zero]; unfold InB; omega
      · simpa only [dxOf_zero, dyOf_zero, add_zero, Int.add_neg_one] using v
    · refine ⟨1, rfl, ?_, ?_⟩
      · simp only [dxOf_one, dyOf_one]; unfold InB; omega
      · simpa only [dxOf_one, dyOf_one, add_zero, Int.add_neg_one] using v
    · refine ⟨2, rfl, ?_, ?_⟩
      · simp only [dxOf_two, dyOf_two]; unfold InB; omega
      · simpa only [dxOf_two, dyOf_two, add_zero] using v
    · refine ⟨3, rfl, ?_, ?_⟩
      · simp only [dxOf_three, dyOf_three]; unfold InB; omega
      · simpa only [dxOf_three, dyOf_three, add_zero] using v
  · rintro ⟨i, rfl, hb, hv⟩
    fin_cases i
    · left; left; left
      simp only [Fin.zero_eta, Fin.val_zero, Nat.cast_zero, dxOf_zero, dyOf_zero, add_zero,
        Int.add_neg_one] at hb hv
      exact ⟨⟨by unfold InB at hb; omega, hv⟩, rfl⟩
    · left; left; right
      simp only [Fin.mk_one, Fin.val_one, Nat.cast_one, dxOf_one, dyOf_one, add_zero,
        Int.add_neg_one] at hb hv
      exact ⟨⟨by unfold InB at hb; omega, hv⟩, rfl⟩
    · left; right
      have e : (((⟨2, by omega⟩ : Fin 4).val : Nat) : Int) = 2 := rfl
      simp only [e, dxOf_two, dyOf_two, add_zero] at hb hv
      exact ⟨⟨by unfold InB at hb; omega, hv⟩, rfl⟩
    · right
      have e : (((⟨3, by omega⟩ : Fin 4).val : Nat) : Int) = 3 := rfl
      simp only [e, dxOf_three, dyOf_three, add_zero] at hb hv
      exact ⟨⟨by unfold InB at hb; omega, hv⟩, rfl⟩

theorem clearWall_spec {N : Nat} {maze : List Cell} (hl : maze.length = N * N)
    {x y : Int} (h : InB N x y) {d : Int} {i : Fin 4} (hd : toDir d = some i) :
    ∃ m, clearWall N maze x y d = some m ∧ m.length = N * N ∧
      ∀ a b, InB N a b →
        cellAt N m a b = if a = x ∧ b = y
          then { cellAt N maze x y with
            walls := Function.update (cellAt N maze x y).walls i false }
          else cellAt N maze a b := by
  obtain ⟨m, hm, hlen, hcell⟩ := writeCell_spec hl h
    { cellAt N maze x y with walls := Function.update (cellAt N maze x y).walls i false }
  refine ⟨m, ?_, hlen, hcell⟩
  unfold clearWall
  simp only [Option.bind_eq_bind, hd, Option.some_bind, readCell_eq_some hl h]
  exact hm

theorem markVisited_spec {N : Nat} {maze : List Cell} (hl : maze.length = N * N)
    {x y : Int} (h : InB N x y) :
    ∃ m, markVisited N maze x y = some m ∧ m.length = N * N ∧
      ∀ a b, InB N a b →
        cellAt N m a b = if a = x ∧ b = y
          then { cellAt N maze x y with visited := true }
          else cellAt N maze a b := by
  obtain ⟨m, hm, hlen, hcell⟩ := writeCell_spec hl h
    { cellAt N maze x y with visited := true }
  refine ⟨m, ?_, hlen, hcell⟩
  unfold markVisited
  simp only [Option.bind_eq_bind, Option.some_bind, readCell_eq_some hl h]
  exact hm

/-- Outcome of one loop iteration on a well-formed state whose stack top `(x, y)`
is in the grid: either every in-grid neighbour is visited and the top is popped,
or some direction `d` towards an unvisited in-grid neighbour is carved. -/
theorem step_spec {N : Nat} (rng : Nat → Nat) {s : GenState} {x y : Int}
    {rest : List (Int × Int)} (hl : s.maze.length = N * N)
    (hst : s.st = (x, y) :: rest) (hxy : InB N x y) :
    ((∀ d : Fin 4, InB N (x + dxOf ((d.val : Nat) : Int)) (y + dyOf ((d.val : Nat) : Int)) →
        (cellAt N s.maze (x + dxOf ((d.val : Nat) : Int))
          (y + dyOf ((d.val : Nat) : Int))).visited = true) ∧
      step N rng s = some { s with st := rest }) ∨
    ∃ (d : Fin 4) (m : List Cell),
      InB N (x + dxOf ((d.val : Nat) : Int)) (y + dyOf ((d.val : Nat) : Int)) ∧
      (cellAt N s.maze (x + dxOf ((d.val : Nat) : Int))
        (y + dyOf ((d.val : Nat) : Int))).visited = false ∧
      step N rng s = some
        { maze := m
          st := (x + dxOf ((d.val : Nat) : Int), y + dyOf ((d.val : Nat) : Int)) ::
            (x, y) :: rest
          draws := s.draws + 1 } ∧
      m.length = N * N ∧ Carved N s.maze m x y d := by
  obtain ⟨dirs, hdirs, hmem⟩ := candidates_spec hl hxy
  unfold step
  rw [hst]
  simp only [Option.bind_eq_bind, hdirs, Option.some_bind]
  by_cases he : dirs = []
  · left
    subst he
    refine ⟨?_, by simp⟩
    intro d hb
    by_contra hv
    have : (((d.val : Nat) : Int)) ∈ ([] : List Int) :=
      (hmem _).2 ⟨d, rfl, hb, by simpa using hv⟩
    simp at this
  · right
    have hlen : 0 < dirs.length := List.length_pos.2 he
    have hlt : rng s.draws % dirs.length < dirs.length := Nat.mod_lt _ hlen
    have hin : dirs[rng s.draws % dirs.length] ∈ dirs := List.getElem_mem _
    obtain ⟨i, hi, hb, hv⟩ := (hmem _).1 hin
    have hne : dirs.isEmpty = false := by
      cases dirs with
      | nil => exact absurd rfl he
      | cons _ _ => rfl
    rw [hne, List.getElem?_eq_getElem hlt]
    simp only [Bool.false_eq_true, if_false, Option.some_bind]
    rw [hi] at hb hv ⊢
    obtain ⟨m1, hm1, hl1, hc1⟩ := clearWall_spec hl hxy (toDir_val i)
    obtain ⟨m2, hm2, hl2, hc2⟩ := clearWall_spec hl1 hb (toDir_opp i)
    obtain ⟨m3, hm3, hl3, hc3⟩ := markVisited_spec hl2 hb
    have hneq : ¬ (x + dxOf ((i.val : Nat) : Int) = x ∧ y + dyOf ((i.val : Nat) : Int) = y) := by
      fin_cases i <;> simp [dxOf, dyOf]
    have e1 := hc1 _ _ hb
    rw [if_neg hneq] at e1
    have e2 := hc2 _ _ hb
    rw [if_pos ⟨rfl, rfl⟩, e1] at e2
    refine ⟨i, m3, hb, hv, ?_, hl3, ⟨?_, ?_⟩⟩
    · simp only [hm1, Option.some_bind, hm2, hm3]
    · intro a b hab e
      rw [hc3 a b hab]
      by_cases h1 : a = x + dxOf ((i.val : Nat) : Int) ∧ b = y + dyOf ((i.val : Nat) : Int)
      · obtain ⟨rfl, rfl⟩ := h1
        rw [if_pos ⟨rfl, rfl⟩, e2]
        have h4 : ¬ (x + dxOf ((i.val : Nat) : Int) = x ∧ y + dyOf ((i.val : Nat) : Int) = y ∧
            e = i) := fun h => hneq ⟨h.1, h.2.1⟩
        simp only [h4, true_and, false_or, Function.update_apply]
      · rw [if_neg h1, hc2 a b hab, if_neg h1, hc1 a b hab]
        by_cases h2 : a = x ∧ b = y
        · obtain ⟨rfl, rfl⟩ := h2
          simp only [true_and, if_true, Function.update_apply]
          have h5 : ¬ (a = a + dxOf ((i.val : Nat) : Int) ∧ b = b + dyOf ((i.val : Nat) : Int) ∧
              e = i + 2) := fun h => h1 ⟨h.1, h.2.1⟩
          simp only [h5, or_false]
        · rw [if_neg h2]
          have h3 : ¬ ((a = x ∧ b = y ∧ e = i) ∨
              (a = x + dxOf ((i.val : Nat) : Int) ∧ b = y + dyOf ((i.val : Nat) : Int) ∧
                e = i + 2)) := by
            rintro (⟨p, q, _⟩ | ⟨p, q, _⟩)
            · exact h2 ⟨p, q⟩
            · exact h1 ⟨p, q⟩
          rw [if_neg h3]
    · intro a b hab
      rw [hc3 a b hab]
      by_cases h1 : a = x + dxOf ((i.val : Nat) : Int) ∧ b = y + dyOf ((i.val : Nat) : Int)
      · rw [if_pos h1, if_pos h1]
      · rw [if_neg h1, if_neg h1, hc2 a b hab, if_neg h1, hc1 a b hab]
        by_cases h2 : a = x ∧ b = y
        · obtain ⟨rfl, rfl⟩ := h2
          simp
        · rw [if_neg h2]

/-! ## Effect of one carve on the passage graph -/

theorem opp_cases (d e : Fin 4) (x y a b : Int) :
    ((a = x ∧ b = y ∧ e = d) ∨
      (a = x + dxOf ((d.val : Nat) : Int) ∧ b = y + dyOf ((d.val : Nat) : Int) ∧ e = d + 2)) ↔
    ((a + dxOf ((e.val : Nat) : Int) = x ∧ b + dyOf ((e.val : Nat) : Int) = y ∧ e + 2 = d) ∨
      (a + dxOf ((e.val : Nat) : Int) = x + dxOf ((d.val : Nat) : Int) ∧
        b + dyOf ((e.val : Nat) : Int) = y + dyOf ((d.val : Nat) : Int) ∧ e + 2 = d + 2)) := by
  fin_cases d <;> fin_cases e <;> simp [dxOf, dyOf] <;> omega

theorem openDir_carved {N : Nat} {maze m : List Cell} {x y : Int} {d : Fin 4}
    (hc : Carved N maze m x y d) {a b : Int} (e : Fin 4) (hab : InB N a b)
    (hab' : InB N (a + dxOf ((e.val : Nat) : Int)) (b + dyOf ((e.val : Nat) : Int))) :
    openDir N m a b e ↔ openDir N maze a b e ∨
      ((a = x ∧ b = y ∧ e = d) ∨
        (a = x + dxOf ((d.val : Nat) : Int) ∧ b = y + dyOf ((d.val : Nat) : Int) ∧
          e = d + 2)) := by
  unfold openDir
  rw [hc.1 a b hab e, hc.1 _ _ hab' (e + 2)]
  have key := opp_cases d e x y a b
  by_cases h : (a = x ∧ b = y ∧ e = d) ∨
      (a = x + dxOf ((d.val : Nat) : Int) ∧ b = y + dyOf ((d.val : Nat) : Int) ∧ e = d + 2)
  · rw [if_pos h, if_pos (key.1 h)]
    simp [h]
  · rw [if_neg h, if_neg (mt key.2 h)]
    simp [h]

theorem passage_iff {N : Nat} {maze : List Cell} {a b : Int × Int} :
    passage N maze a b ↔ InB N a.1 a.2 ∧ InB N b.1 b.2 ∧
      ∃ d : Fin 4, b = (a.1 + dxOf ((d.val : Nat) : Int), a.2 + dyOf ((d.val : Nat) : Int)) ∧
        openDir N maze a.1 a.2 d := by
  unfold passage openDir
  constructor
  · rintro ⟨ha, hb, d, rfl, h1, h2⟩
    exact ⟨ha, hb, d, rfl, h1, h2⟩
  · rintro ⟨ha, hb, d, rfl, h1, h2⟩
    exact ⟨ha, hb, d, rfl, h1, h2⟩

theorem passage_carved_mono {N : Nat} {maze m : List Cell} {x y : Int} {d : Fin 4}
    (hc : Carved N maze m x y d) {a b : Int × Int} (h : passage N maze a b) :
    passage N m a b := by
  rw [passage_iff] at h ⊢
  obtain ⟨ha, hb, e, rfl, ho⟩ := h
  exact ⟨ha, hb, e, rfl, (openDir_carved hc e ha hb).2 (Or.inl ho)⟩

theorem passage_carved_new {N : Nat} {maze m : List Cell} {x y : Int} {d : Fin 4}
    (hc : Carved N maze m x y d) (hxy : InB N x y)
    (hnb : InB N (x + dxOf ((d.val : Nat) : Int)) (y + dyOf ((d.val : Nat) : Int))) :
    passage N m (x, y) (x + dxOf ((d.val : Nat) : Int), y + dyOf ((d.val : Nat) : Int)) := by
  rw [passage_iff]
  exact ⟨hxy, hnb, d, rfl, (openDir_carved hc d hxy hnb).2 (Or.inr (Or.inl ⟨rfl, rfl, rfl⟩))⟩

theorem reach_carved_mono {N : Nat} {maze m : List Cell} {x y : Int} {d : Fin 4}
    (hc : Carved N maze m x y d) {a b : Int × Int}
    (h : Relation.ReflTransGen (passage N maze) a b) :
    Relation.ReflTransGen (passage N m) a b :=
  Relation.ReflTransGen.mono (fun _ _ hp => passage_carved_mono hc hp) h

theorem nb_back (d : Fin 4) (x y : Int) :
    x + dxOf ((d.val : Nat) : Int) + dxOf (((d + 2 : Fin 4).val : Nat) : Int) = x ∧
    y + dyOf ((d.val : Nat) : Int) + dyOf (((d + 2 : Fin 4).val : Nat) : Int) = y := by
  have h : ∀ e : Fin 4, dxOf ((e.val : Nat) : Int) + dxOf (((e + 2 : Fin 4).val : Nat) : Int) = 0 ∧
      dyOf ((e.val : Nat) : Int) + dyOf (((e + 2 : Fin 4).val : Nat) : Int) = 0 := by decide
  obtain ⟨p, q⟩ := h d
  constructor <;> omega

/-! ## Preservation of the loop invariant -/

theorem inv_pop {N : Nat} {sx sy : Int} {s : GenState} {x y : Int}
    {rest : List (Int × Int)} (h : GenInv N sx sy s) (hst : s.st = (x, y) :: rest)
    (hall : ∀ d : Fin 4,
      InB N (x + dxOf ((d.val : Nat) : Int)) (y + dyOf ((d.val : Nat) : Int)) →
      (cellAt N s.maze (x + dxOf ((d.val : Nat) : Int))
        (y + dyOf ((d.val : Nat) : Int))).visited = true) :
    GenInv N sx sy { s with st := rest } := by
  refine ⟨h.len, h.start, ?_, h.agree, h.fresh, h.border, ?_, h.reach, h.edges, h.draws⟩
  · intro p hp
    exact h.stack p (by rw [hst]; exact List.mem_cons_of_mem _ hp)
  · intro a b hab hv hnot e he
    by_cases hxy : a = x ∧ b = y
    · obtain ⟨rfl, rfl⟩ := hxy
      exact hall e he
    · refine h.closed a b hab hv ?_ e he
      rw [hst]
      intro hmem
      rcases List.mem_cons.1 hmem with heq | hmem
      · exact hxy ⟨congrArg Prod.fst heq, congrArg Prod.snd heq⟩
      · exact hnot hmem

theorem inv_push_basic {N : Nat} {sx sy : Int} {s : GenState} {x y : Int}
    {rest : List (Int × Int)} {d : Fin 4} {m : List Cell}
    (h : GenInv N sx sy s) (hst : s.st = (x, y) :: rest)
    (hnb : InB N (x + dxOf ((d.val : Nat) : Int)) (y + dyOf ((d.val : Nat) : Int)))
    (hc : Carved N s.maze m x y d) :
    (InB N sx sy ∧ (cellAt N m sx sy).visited = true) ∧
    (∀ p ∈ (x + dxOf ((d.val : Nat) : Int), y + dyOf ((d.val : Nat) : Int)) :: (x, y) :: rest,
      InB N p.1 p.2 ∧ (cellAt N m p.1 p.2).visited = true) ∧
    WallsAgree N m ∧
    (∀ a b, InB N a b → (cellAt N m a b).visited = false →
      ∀ e : Fin 4, (cellAt N m a b).walls e = true) ∧
    (∀ a b, InB N a b → ∀ e : Fin 4,
      ¬ InB N (a + dxOf ((e.val : Nat) : Int)) (b + dyOf ((e.val : Nat) : Int)) →
      (cellAt N m a b).walls e = true) := by
  have hxy : InB N x y ∧ (cellAt N s.maze x y).visited = true :=
    h.stack (x, y) (by rw [hst]; exact List.mem_cons_self _ _)
  have vmono : ∀ a b, InB N a b → (cellAt N s.maze a b).visited = true →
      (cellAt N m a b).visited = true := by
    intro a b hab hv
    rw [hc.2 a b hab, hv]; simp
  refine ⟨⟨h.start.1, vmono _ _ h.start.1 h.start.2⟩, ?_, ?_, ?_, ?_⟩
  · intro p hp
    rcases List.mem_cons.1 hp with rfl | hp
    · refine ⟨hnb, ?_⟩
      rw [hc.2 _ _ hnb]; simp
    · have := h.stack p (by rw [hst]; exact hp)
      exact ⟨this.1, vmono _ _ this.1 this.2⟩
  · intro a b hab
    constructor
    · intro hab'
      rw [hc.1 a b hab 2, hc.1 (a + 1) b hab' 0]
      have key : ((a = x ∧ b = y ∧ (2 : Fin 4) = d) ∨
          (a = x + dxOf ((d.val : Nat) : Int) ∧ b = y + dyOf ((d.val : Nat) : Int) ∧
            (2 : Fin 4) = d + 2)) ↔
          ((a + 1 = x ∧ b = y ∧ (0 : Fin 4) = d) ∨
          (a + 1 = x + dxOf ((d.val : Nat) : Int) ∧ b = y + dyOf ((d.val : Nat) : Int) ∧
            (0 : Fin 4) = d + 2)) := by
        fin_cases d <;> simp [dxOf, dyOf] <;> omega
      by_cases hcase : (a = x ∧ b = y ∧ (2 : Fin 4) = d) ∨
          (a = x + dxOf ((d.val : Nat) : Int) ∧ b = y + dyOf ((d.val : Nat) : Int) ∧
            (2 : Fin 4) = d + 2)
      · rw [if_pos hcase, if_pos (key.1 hcase)]
      · rw [if_neg hcase, if_neg (mt key.2 hcase)]
        exact (h.agree a b hab).1 hab'
    · intro hab'
      rw [hc.1 a b hab 3, hc.1 a (b + 1) hab' 1]
      have key : ((a = x ∧ b = y ∧ (3 : Fin 4) = d) ∨
          (a = x + dxOf ((d.val : Nat) : Int) ∧ b = y + dyOf ((d.val : Nat) : Int) ∧
            (3 : Fin 4) = d + 2)) ↔
          ((a = x ∧ b + 1 = y ∧ (1 : Fin 4) = d) ∨
          (a = x + dxOf ((d.val : Nat) : Int) ∧ b + 1 = y + dyOf ((d.val : Nat) : Int) ∧
            (1 : Fin 4) = d + 2)) := by
        fin_cases d <;> simp [dxOf, dyOf] <;> omega
      by_cases hcase : (a = x ∧ b = y ∧ (3 : Fin 4) = d) ∨
          (a = x + dxOf ((d.val : Nat) : Int) ∧ b = y + dyOf ((d.val : Nat) : Int) ∧
            (3 : Fin 4) = d + 2)
      · rw [if_pos hcase, if_pos (key.1 hcase)]
      · rw [if_neg hcase, if_neg (mt key.2 hcase)]
        exact (h.agree a b hab).2 hab'
  · intro a b hab hv e
    rw [hc.2 a b hab] at hv
    by_cases hn : a = x + dxOf ((d.val : Nat) : Int) ∧ b = y + dyOf ((d.val : Nat) : Int)
    · rw [if_pos hn] at hv; exact absurd hv (by simp)
    · rw [if_neg hn] at hv
      rw [hc.1 a b hab e]
      have hcur : ¬ (a = x ∧ b = y) := by
        rintro ⟨rfl, rfl⟩
        rw [hxy.2] at hv
        exact absurd hv (by simp)
      rw [if_neg (by rintro (⟨p, q, _⟩ | ⟨p, q, _⟩); exacts [hcur ⟨p, q⟩, hn ⟨p, q⟩])]
      exact h.fresh a b hab hv e
  · intro a b hab e hout
    rw [hc.1 a b hab e]
    have hcond : ¬ ((a = x ∧ b = y ∧ e = d) ∨
        (a = x + dxOf ((d.val : Nat) : Int) ∧ b = y + dyOf ((d.val : Nat) : Int) ∧
          e = d + 2)) := by
      rintro (⟨rfl, rfl, rfl⟩ | ⟨rfl, rfl, rfl⟩)
      · exact hout hnb
      · obtain ⟨p, q⟩ := nb_back d x y
        rw [p, q] at hout
        exact hout hxy.1
    rw [if_neg hcond]
    exact h.border a b hab e hout

theorem inv_push_closed {N : Nat} {sx sy : Int} {s : GenState} {x y : Int}
    {rest : List (Int × Int)} {d : Fin 4} {m : List Cell}
    (h : GenInv N sx sy s) (hst : s.st = (x, y) :: rest)
    (hc : Carved N s.maze m x y d) :
    ∀ a b, InB N a b → (cellAt N m a b).visited = true →
      (a, b) ∉ (x + dxOf ((d.val : Nat) : Int), y + dyOf ((d.val : Nat) : Int)) ::
        (x, y) :: rest →
      ∀ e : Fin 4, InB N (a + dxOf ((e.val : Nat) : Int)) (b + dyOf ((e.val : Nat) : Int)) →
      (cellAt N m (a + dxOf ((e.val : Nat) : Int))
        (b + dyOf ((e.val : Nat) : Int))).visited = true := by
  intro a b hab hv hnot e he
  have hn : ¬ (a = x + dxOf ((d.val : Nat) : Int) ∧ b = y + dyOf ((d.val : Nat) : Int)) := by
    rintro ⟨rfl, rfl⟩
    exact hnot (List.mem_cons_self _ _)
  rw [hc.2 a b hab, if_neg hn] at hv
  have hold := h.closed a b hab hv
    (by rw [hst]; exact fun hmem => hnot (List.mem_cons_of_mem _ hmem)) e he
  rw [hc.2 _ _ he, hold]
  simp

theorem inv_push_reach {N : Nat} {sx sy : Int} {s : GenState} {x y : Int}
    {rest : List (Int × Int)} {d : Fin 4} {m : List Cell}
    (h : GenInv N sx sy s) (hst : s.st = (x, y) :: rest)
    (hnb : InB N (x + dxOf ((d.val : Nat) : Int)) (y + dyOf ((d.val : Nat) : Int)))
    (hc : Carved N s.maze m x y d) :
    ∀ a b, InB N a b → (cellAt N m a b).visited = true →
      Relation.ReflTransGen (passage N m) (sx, sy) (a, b) := by
  have hxy : InB N x y ∧ (cellAt N s.maze x y).visited = true :=
    h.stack (x, y) (by rw [hst]; exact List.mem_cons_self _ _)
  intro a b hab hv
  by_cases hn : a = x + dxOf ((d.val : Nat) : Int) ∧ b = y + dyOf ((d.val : Nat) : Int)
  · obtain ⟨rfl, rfl⟩ := hn
    exact Relation.ReflTransGen.tail (reach_carved_mono hc (h.reach x y hxy.1 hxy.2))
      (passage_carved_new hc hxy.1 hnb)
  · rw [hc.2 a b hab, if_neg hn] at hv
    exact reach_carved_mono hc (h.reach a b hab hv)

/-! ## Counting visited cells and edges -/

theorem mem_visitedCells {N : Nat} {maze : List Cell} {p : Int × Int} :
    p ∈ visitedCells N maze ↔ InB N p.1 p.2 ∧ (cellAt N maze p.1 p.2).visited = true := by
  unfold visitedCells InB
  simp only [Finset.mem_filter, Finset.mem_product, Finset.mem_Ico]
  tauto

theorem visitedCells_carved {N : Nat} {maze m : List Cell} {x y : Int} {d : Fin 4}
    (hc : Carved N maze m x y d)
    (hnb : InB N (x + dxOf ((d.val : Nat) : Int)) (y + dyOf ((d.val : Nat) : Int)))
    (hnv : (cellAt N maze (x + dxOf ((d.val : Nat) : Int))
      (y + dyOf ((d.val : Nat) : Int))).visited = false) :
    (visitedCells N m).card = (visitedCells N maze).card + 1 := by
  have e : visitedCells N m =
      insert (x + dxOf ((d.val : Nat) : Int), y + dyOf ((d.val : Nat) : Int))
        (visitedCells N maze) := by
    ext ⟨a, b⟩
    rw [Finset.mem_insert, mem_visitedCells, mem_visitedCells]
    constructor
    · rintro ⟨hab, hv⟩
      rw [hc.2 a b hab] at hv
      by_cases hn : a = x + dxOf ((d.val : Nat) : Int) ∧ b = y + dyOf ((d.val : Nat) : Int)
      · left; exact Prod.ext hn.1 hn.2
      · right; rw [if_neg hn] at hv; exact ⟨hab, hv⟩
    · rintro (heq | ⟨hab, hv⟩)
      · obtain ⟨rfl, rfl⟩ := Prod.mk.inj heq
        refine ⟨hnb, ?_⟩
        rw [hc.2 _ _ hnb]; simp
      · refine ⟨hab, ?_⟩
        rw [hc.2 a b hab, hv]; simp
  rw [e, Finset.card_insert_of_not_mem]
  rw [mem_visitedCells]
  rintro ⟨_, hv⟩
  rw [hnv] at hv
  exact absurd hv (by simp)

theorem visitedCells_card_le (N : Nat) (maze : List Cell) :
    (visitedCells N maze).card ≤ N * N := by
  unfold visitedCells
  refine le_trans (Finset.card_filter_le _ _) ?_
  simp

theorem visitedCells_card_full {N : Nat} {maze : List Cell}
    (h : ∀ x y, InB N x y → (cellAt N maze x y).visited = true) :
    (visitedCells N maze).card = N * N := by
  unfold visitedCells
  rw [Finset.filter_true_of_mem]
  · simp
  · intro p hp
    simp only [Finset.mem_product, Finset.mem_Ico] at hp
    exact h p.1 p.2 ⟨hp.1.1, hp.1.2, hp.2.1, hp.2.2⟩

theorem fin4_cases (d : Fin 4) : d = 0 ∨ d = 1 ∨ d = 2 ∨ d = 3 := by
  revert d; decide

theorem mem_hEdges {N : Nat} {maze : List Cell} {p : Int × Int} :
    p ∈ hEdges N maze ↔ InB N p.1 p.2 ∧
      InB N (p.1 + dxOf (((2 : Fin 4).val : Nat) : Int))
        (p.2 + dyOf (((2 : Fin 4).val : Nat) : Int)) ∧
      openDir N maze p.1 p.2 2 := by
  have e1 : dxOf (((2 : Fin 4).val : Nat) : Int) = 1 := by decide
  have e2 : dyOf (((2 : Fin 4).val : Nat) : Int) = 0 := by decide
  have e3 : (2 : Fin 4) + 2 = 0 := by decide
  unfold hEdges openDir InB
  rw [e1, e2, e3, add_zero]
  simp only [Finset.mem_filter, Finset.mem_product, Finset.mem_Ico]
  constructor
  · rintro ⟨⟨⟨h1, h2⟩, h3, h4⟩, h5⟩
    exact ⟨⟨h1, by omega, h3, h4⟩, ⟨by omega, by omega, h3, h4⟩, h5⟩
  · rintro ⟨⟨h1, h2, h3, h4⟩, ⟨h5, h6, _, _⟩, h7⟩
    exact ⟨⟨⟨h1, by omega⟩, h3, h4⟩, h7⟩

theorem mem_vEdges {N : Nat} {maze : List Cell} {p : Int × Int} :
    p ∈ vEdges N maze ↔ InB N p.1 p.2 ∧
      InB N (p.1 + dxOf (((3 : Fin 4).val : Nat) : Int))
        (p.2 + dyOf (((3 : Fin 4).val : Nat) : Int)) ∧
      openDir N maze p.1 p.2 3 := by
  have e1 : dxOf (((3 : Fin 4).val : Nat) : Int) = 0 := by decide
  have e2 : dyOf (((3 : Fin 4).val : Nat) : Int) = 1 := by decide
  have e3 : (3 : Fin 4) + 2 = 1 := by decide
  unfold vEdges openDir InB
  rw [e1, e2, e3, add_zero]
  simp only [Finset.mem_filter, Finset.mem_product, Finset.mem_Ico]
  constructor
  · rintro ⟨⟨⟨h1, h2⟩, h3, h4⟩, h5⟩
    exact ⟨⟨h1, h2, h3, by omega⟩, ⟨h1, h2, by omega, by omega⟩, h5⟩
  · rintro ⟨⟨h1, h2, h3, h4⟩, ⟨_, _, h5, h6⟩, h7⟩
    exact ⟨⟨⟨h1, h2⟩, h3, by omega⟩, h7⟩

theorem slot_carved {N : Nat} {maze m : List Cell} {x y : Int} {d : Fin 4}
    (hc : Carved N maze m x y d) (e : Fin 4) (a b : Int) :
    (InB N a b ∧ InB N (a + dxOf ((e.val : Nat) : Int)) (b + dyOf ((e.val : Nat) : Int)) ∧
      openDir N m a b e) ↔
    (InB N a b ∧ InB N (a + dxOf ((e.val : Nat) : Int)) (b + dyOf ((e.val : Nat) : Int)) ∧
      openDir N maze a b e) ∨
    (InB N a b ∧ InB N (a + dxOf ((e.val : Nat) : Int)) (b + dyOf ((e.val : Nat) : Int)) ∧
      ((a = x ∧ b = y ∧ e = d) ∨
        (a = x + dxOf ((d.val : Nat) : Int) ∧ b = y + dyOf ((d.val : Nat) : Int) ∧
          e = d + 2))) := by
  constructor
  · rintro ⟨h1, h2, h3⟩
    rcases (openDir_carved hc e h1 h2).1 h3 with h | h
    · exact Or.inl ⟨h1, h2, h⟩
    · exact Or.inr ⟨h1, h2, h⟩
  · rintro (⟨h1, h2, h3⟩ | ⟨h1, h2, h3⟩)
    · exact ⟨h1, h2, (openDir_carved hc e h1 h2).2 (Or.inl h3)⟩
    · exact ⟨h1, h2, (openDir_carved hc e h1 h2).2 (Or.inr h3)⟩

theorem fin4_add_two_ne (d : Fin 4) : d ≠ d + 2 := by
  revert d; decide

theorem edges_insert_cur {N : Nat} {maze m : List Cell} {x y : Int} {d : Fin 4}
    {F G : Finset (Int × Int)} (e : Fin 4)
    (hF : ∀ p : Int × Int, p ∈ F ↔ InB N p.1 p.2 ∧
      InB N (p.1 + dxOf ((e.val : Nat) : Int)) (p.2 + dyOf ((e.val : Nat) : Int)) ∧
      openDir N maze p.1 p.2 e)
    (hG : ∀ p : Int × Int, p ∈ G ↔ InB N p.1 p.2 ∧
      InB N (p.1 + dxOf ((e.val : Nat) : Int)) (p.2 + dyOf ((e.val : Nat) : Int)) ∧
      openDir N m p.1 p.2 e)
    (hc : Carved N maze m x y d) (hxy : InB N x y)
    (hnb : InB N (x + dxOf ((d.val : Nat) : Int)) (y + dyOf ((d.val : Nat) : Int)))
    (hfresh : ∀ f : Fin 4, (cellAt N maze (x + dxOf ((d.val : Nat) : Int))
      (y + dyOf ((d.val : Nat) : Int))).walls f = true)
    (hed : e = d) : G.card = F.card + 1 := by
  subst hed
  have hins : G = insert (x, y) F := by
    ext ⟨a, b⟩
    rw [Finset.mem_insert, hG, slot_carved hc, ← hF]
    constructor
    · rintro (h | ⟨_, _, (⟨rfl, rfl, _⟩ | ⟨_, _, h3⟩)⟩)
      · exact Or.inr h
      · exact Or.inl rfl
      · exact absurd h3 (fin4_add_two_ne e)
    · rintro (heq | h)
      · obtain ⟨rfl, rfl⟩ := Prod.mk.inj heq
        exact Or.inr ⟨hxy, hnb, Or.inl ⟨rfl, rfl, rfl⟩⟩
      · exact Or.inl h
  rw [hins, Finset.card_insert_of_not_mem]
  rw [hF]
  rintro ⟨_, _, _, h2⟩
  rw [hfresh] at h2
  exact absurd h2 (by simp)

theorem edges_insert_nb {N : Nat} {maze m : List Cell} {x y : Int} {d : Fin 4}
    {F G : Finset (Int × Int)} (e : Fin 4)
    (hF : ∀ p : Int × Int, p ∈ F ↔ InB N p.1 p.2 ∧
      InB N (p.1 + dxOf ((e.val : Nat) : Int)) (p.2 + dyOf ((e.val : Nat) : Int)) ∧
      openDir N maze p.1 p.2 e)
    (hG : ∀ p : Int × Int, p ∈ G ↔ InB N p.1 p.2 ∧
      InB N (p.1 + dxOf ((e.val : Nat) : Int)) (p.2 + dyOf ((e.val : Nat) : Int)) ∧
      openDir N m p.1 p.2 e)
    (hc : Carved N maze m x y d) (hxy : InB N x y)
    (hnb : InB N (x + dxOf ((d.val : Nat) : Int)) (y + dyOf ((d.val : Nat) : Int)))
    (hfresh : ∀ f : Fin 4, (cellAt N maze (x + dxOf ((d.val : Nat) : Int))
      (y + dyOf ((d.val : Nat) : Int))).walls f = true)
    (hed : e = d + 2) : G.card = F.card + 1 := by
  subst hed
  have hins : G = insert (x + dxOf ((d.val : Nat) : Int), y + dyOf ((d.val : Nat) : Int)) F := by
    ext ⟨a, b⟩
    rw [Finset.mem_insert, hG, slot_carved hc, ← hF]
    constructor
    · rintro (h | ⟨_, _, (⟨_, _, h3⟩ | ⟨rfl, rfl, _⟩)⟩)
      · exact Or.inr h
      · exact absurd h3.symm (fin4_add_two_ne d)
      · exact Or.inl rfl
    · rintro (heq | h)
      · obtain ⟨rfl, rfl⟩ := Prod.mk.inj heq
        refine Or.inr ⟨hnb, ?_, Or.inr ⟨rfl, rfl, rfl⟩⟩
        obtain ⟨p, q⟩ := nb_back d x y
        rw [p, q]
        exact hxy
      · exact Or.inl h
  rw [hins, Finset.card_insert_of_not_mem]
  rw [hF]
  rintro ⟨_, _, h1, _⟩
  rw [hfresh] at h1
  exact absurd h1 (by simp)

theorem edges_same {N : Nat} {maze m : List Cell} {x y : Int} {d : Fin 4}
    {F G : Finset (Int × Int)} (e : Fin 4)
    (hF : ∀ p : Int × Int, p ∈ F ↔ InB N p.1 p.2 ∧
      InB N (p.1 + dxOf ((e.val : Nat) : Int)) (p.2 + dyOf ((e.val : Nat) : Int)) ∧
      openDir N maze p.1 p.2 e)
    (hG : ∀ p : Int × Int, p ∈ G ↔ InB N p.1 p.2 ∧
      InB N (p.1 + dxOf ((e.val : Nat) : Int)) (p.2 + dyOf ((e.val : Nat) : Int)) ∧
      openDir N m p.1 p.2 e)
    (hc : Carved N maze m x y d) (hed : e ≠ d) (hed' : e ≠ d + 2) :
    G.card = F.card := by
  have heq : G = F := by
    ext ⟨a, b⟩
    rw [hG, slot_carved hc, ← hF]
    constructor
    · rintro (h | ⟨_, _, (⟨_, _, h3⟩ | ⟨_, _, h3⟩)⟩)
      · exact h
      · exact absurd h3 hed
      · exact absurd h3 hed'
    · exact Or.inl
  rw [heq]

theorem edgeCount_carved {N : Nat} {maze m : List Cell} {x y : Int} {d : Fin 4}
    (hc : Carved N maze m x y d) (hxy : InB N x y)
    (hnb : InB N (x + dxOf ((d.val : Nat) : Int)) (y + dyOf ((d.val : Nat) : Int)))
    (hfresh : ∀ f : Fin 4, (cellAt N maze (x + dxOf ((d.val : Nat) : Int))
      (y + dyOf ((d.val : Nat) : Int))).walls f = true) :
    edgeCount N m = edgeCount N maze + 1 := by
  unfold edgeCount
  rcases fin4_cases d with rfl | rfl | rfl | rfl
  · rw [edges_insert_nb 2 (fun _ => mem_hEdges) (fun _ => mem_hEdges) hc hxy hnb hfresh
        (by decide),
      edges_same 3 (fun _ => mem_vEdges) (fun _ => mem_vEdges) hc (by decide) (by decide)]
    omega
  · rw [edges_same 2 (fun _ => mem_hEdges) (fun _ => mem_hEdges) hc (by decide) (by decide),
      edges_insert_nb 3 (fun _ => mem_vEdges) (fun _ => mem_vEdges) hc hxy hnb hfresh
        (by decide)]
    omega
  · rw [edges_insert_cur 2 (fun _ => mem_hEdges) (fun _ => mem_hEdges) hc hxy hnb hfresh rfl,
      edges_same 3 (fun _ => mem_vEdges) (fun _ => mem_vEdges) hc (by decide) (by decide)]
    omega
  · rw [edges_same 2 (fun _ => mem_hEdges) (fun _ => mem_hEdges) hc (by decide) (by decide),
      edges_insert_cur 3 (fun _ => mem_vEdges) (fun _ => mem_vEdges) hc hxy hnb hfresh rfl]
    omega

/-- One loop iteration from a state with a non-empty stack succeeds, keeps the
invariant, and either pushes one cell while marking one more cell visited, or pops
one cell: `2 * visited - stack` grows by exactly one. -/
theorem step_inv {N : Nat} {sx sy : Int} (rng : Nat → Nat) {s : GenState}
    (h : GenInv N sx sy s) (hne : s.st ≠ []) :
    ∃ s', step N rng s = some s' ∧ GenInv N sx sy s' ∧
      2 * (visitedCells N s'.maze).card + s.st.length =
        2 * (visitedCells N s.maze).card + s'.st.length + 1 := by
  obtain ⟨⟨x, y⟩, rest, hst⟩ := List.exists_cons_of_ne_nil hne
  have hxy : InB N x y ∧ (cellAt N s.maze x y).visited = true :=
    h.stack (x, y) (by rw [hst]; exact List.mem_cons_self _ _)
  rcases step_spec rng h.len hst hxy.1 with ⟨hall, hstep⟩ | ⟨d, m, hnb, hnv, hstep, hl, hc⟩
  · refine ⟨_, hstep, inv_pop h hst hall, ?_⟩
    simp only [hst, List.length_cons]
    omega
  · obtain ⟨b1, b2, b3, b4, b5⟩ := inv_push_basic h hst hnb hc
    have hcard := visitedCells_carved hc hnb hnv
    have hedge := edgeCount_carved hc hxy.1 hnb (h.fresh _ _ hnb hnv)
    refine ⟨_, hstep, ⟨hl, b1, b2, b3, b4, b5, inv_push_closed h hst hc,
      inv_push_reach h hst hnb hc, ?_, ?_⟩, ?_⟩
    · show edgeCount N m + 1 = (visitedCells N m).card
      rw [hedge, hcard, h.edges]
    · show s.draws + 1 + 1 = (visitedCells N m).card
      rw [hcard, h.draws]
    · show 2 * (visitedCells N m).card + s.st.length = _
      simp only [hst, List.length_cons]
      omega

theorem cellAt_replicate {N : Nat} (c : Cell) {x y : Int} (h : InB N x y) :
    cellAt N (List.replicate (N * N) c) x y = c := by
  obtain ⟨h0, h1⟩ := idx_bounds h
  have hlt : (idx N x y).toNat < N * N := by
    zify; rw [Int.toNat_of_nonneg h0]; exact h1
  unfold cellAt readCell
  rw [if_pos h0, List.getElem?_replicate, if_pos hlt]
  rfl

/-- The state on entry to the loop exists for an in-grid start cell and satisfies
the invariant, with one visited cell and one stack entry. -/
theorem init_inv {N : Nat} (old : List Cell) {sx sy : Int} (hs : InB N sx sy) :
    ∃ s0, initState N old sx sy = some s0 ∧ GenInv N sx sy s0 ∧
      2 * (visitedCells N s0.maze).card = 0 + 1 + s0.st.length := by
  have hrep : (List.replicate (N * N) ({} : Cell)).length = N * N := by simp
  obtain ⟨m, hm, hl, hc⟩ := markVisited_spec hrep hs
  have hw : ∀ a b, InB N a b → ∀ e : Fin 4, (cellAt N m a b).walls e = true := by
    intro a b hab e
    rw [hc a b hab]
    split_ifs
    · rw [cellAt_replicate _ hs]
    · rw [cellAt_replicate _ hab]
  have hv : ∀ a b, InB N a b →
      ((cellAt N m a b).visited = true ↔ a = sx ∧ b = sy) := by
    intro a b hab
    rw [hc a b hab]
    split_ifs with hif
    · simp [hif]
    · rw [cellAt_replicate _ hab]
      simp [hif]
  have hcells : visitedCells N m = {(sx, sy)} := by
    ext ⟨a, b⟩
    rw [mem_visitedCells, Finset.mem_singleton]
    constructor
    · rintro ⟨hab, hvis⟩
      obtain ⟨rfl, rfl⟩ := (hv a b hab).1 hvis
      rfl
    · intro heq
      obtain ⟨rfl, rfl⟩ := Prod.mk.inj heq
      exact ⟨hs, (hv _ _ hs).2 ⟨rfl, rfl⟩⟩
  have hH : hEdges N m = ∅ := by
    ext p
    rw [mem_hEdges]
    simp only [Finset.not_mem_empty, iff_false]
    rintro ⟨hp, _, ho, _⟩
    rw [hw _ _ hp] at ho
    exact absurd ho (by simp)
  have hV : vEdges N m = ∅ := by
    ext p
    rw [mem_vEdges]
    simp only [Finset.not_mem_empty, iff_false]
    rintro ⟨hp, _, ho, _⟩
    rw [hw _ _ hp] at ho
    exact absurd ho (by simp)
  refine ⟨{ maze := m, st := [(sx, sy)], draws := 0 }, ?_, ?_, ?_⟩
  · unfold initState
    simp only [Option.bind_eq_bind, hm, Option.some_bind]
  · refine ⟨hl, ⟨hs, (hv _ _ hs).2 ⟨rfl, rfl⟩⟩, ?_, ?_, ?_, ?_, ?_, ?_, ?_, ?_⟩
    · intro p hp
      rw [List.mem_singleton] at hp
      subst hp
      exact ⟨hs, (hv _ _ hs).2 ⟨rfl, rfl⟩⟩
    · intro a b hab
      exact ⟨fun hab' => by rw [hw _ _ hab, hw _ _ hab'],
        fun hab' => by rw [hw _ _ hab, hw _ _ hab']⟩
    · intro a b hab _ e
      exact hw a b hab e
    · intro a b hab e _
      exact hw a b hab e
    · intro a b hab hvis hnot
      obtain ⟨rfl, rfl⟩ := (hv a b hab).1 hvis
      exact absurd (List.mem_singleton.2 rfl) hnot
    · intro a b hab hvis
      obtain ⟨rfl, rfl⟩ := (hv a b hab).1 hvis
      exact Relation.ReflTransGen.refl
    · show edgeCount N m + 1 = (visitedCells N m).card
      unfold edgeCount
      rw [hH, hV, hcells]
      simp
    · show 0 + 1 = (visitedCells N m).card
      rw [hcells]
      simp
  · show 2 * (visitedCells N m).card = 0 + 1 + 1
    rw [hcells]
    simp

/-! ## Exit of the loop -/

theorem all_visited_of_empty {N : Nat} {sx sy : Int} {s : GenState}
    (h : GenInv N sx sy s) (he : s.st = []) :
    ∀ x y, InB N x y → (cellAt N s.maze x y).visited = true := by
  have d0 : dxOf (((0 : Fin 4).val : Nat) : Int) = -1 ∧ dyOf (((0 : Fin 4).val : Nat) : Int) = 0 := by
    decide
  have d1 : dxOf (((1 : Fin 4).val : Nat) : Int) = 0 ∧ dyOf (((1 : Fin 4).val : Nat) : Int) = -1 := by
    decide
  have d2 : dxOf (((2 : Fin 4).val : Nat) : Int) = 1 ∧ dyOf (((2 : Fin 4).val : Nat) : Int) = 0 := by
    decide
  have d3 : dxOf (((3 : Fin 4).val : Nat) : Int) = 0 ∧ dyOf (((3 : Fin 4).val : Nat) : Int) = 1 := by
    decide
  have cl : ∀ (e : Fin 4) (a b a' b' : Int), InB N a b → (cellAt N s.maze a b).visited = true →
      InB N a' b' → a' = a + dxOf ((e.val : Nat) : Int) → b' = b + dyOf ((e.val : Nat) : Int) →
      (cellAt N s.maze a' b').visited = true := by
    intro e a b a' b' hab hv hab' ea eb
    subst ea eb
    exact h.closed a b hab hv (by rw [he]; simp) e hab'
  have key : ∀ (k : Nat) (x y : Int), InB N x y →
      (x - sx).natAbs + (y - sy).natAbs = k → (cellAt N s.maze x y).visited = true := by
    intro k
    induction k with
    | zero =>
      intro x y _ hk
      have hx : x = sx := by omega
      have hy : y = sy := by omega
      subst hx hy
      exact h.start.2
    | succ k ih =>
      intro x y hxy hk
      obtain ⟨s0, s1, s2, s3⟩ := h.start.1
      obtain ⟨x0, x1, y0, y1⟩ := hxy
      by_cases hx : x = sx
      · by_cases hy : y < sy
        · have hin : InB N x (y + 1) := ⟨x0, x1, by omega, by omega⟩
          exact cl 1 x (y + 1) x y hin (ih x (y + 1) hin (by omega)) ⟨x0, x1, y0, y1⟩
            (by omega) (by omega)
        · have hin : InB N x (y - 1) := ⟨x0, x1, by omega, by omega⟩
          exact cl 3 x (y - 1) x y hin (ih x (y - 1) hin (by omega)) ⟨x0, x1, y0, y1⟩
            (by omega) (by omega)
      · by_cases hlt : x < sx
        · have hin : InB N (x + 1) y := ⟨by omega, by omega, y0, y1⟩
          exact cl 0 (x + 1) y x y hin (ih (x + 1) y hin (by omega)) ⟨x0, x1, y0, y1⟩
            (by omega) (by omega)
        · have hin : InB N (x - 1) y := ⟨by omega, by omega, y0, y1⟩
          exact cl 2 (x - 1) y x y hin (ih (x - 1) y hin (by omega)) ⟨x0, x1, y0, y1⟩
            (by omega) (by omega)
  intro x y hxy
  exact key _ x y hxy rfl

theorem step_empty (N : Nat) (rng : Nat → Nat) {s : GenState} (he : s.st = []) :
    step N rng s = some s := by
  unfold step
  rw [he]

/-- Every number of loop iterations leads to a state, and the state satisfies the
invariant. -/
theorem iter_inv {N : Nat} {sx sy : Int} (rng : Nat → Nat) {s0 : GenState}
    (h0 : GenInv N sx sy s0) (n : Nat) :
    ∃ s, iter N rng n s0 = some s ∧ GenInv N sx sy s := by
  induction n with
  | zero => exact ⟨s0, rfl, h0⟩
  | succ n ih =>
    obtain ⟨s, hs, hinv⟩ := ih
    by_cases he : s.st = []
    · exact ⟨s, by simp only [iter, hs, Option.some_bind, step_empty N rng he], hinv⟩
    · obtain ⟨s', hs', hinv', _⟩ := step_inv rng hinv he
      exact ⟨s', by simp only [iter, hs, Option.some_bind, hs'], hinv'⟩

/-- While the loop is running, `2 * visited = iterations + 1 + stack`: the stack
cannot be empty before iteration `2 * N * N - 1`. -/
theorem iter_count {N : Nat} {sx sy : Int} (rng : Nat → Nat) {s0 : GenState}
    (h0 : GenInv N sx sy s0)
    (hc0 : 2 * (visitedCells N s0.maze).card = 0 + 1 + s0.st.length) (n : Nat)
    (hn : n ≤ 2 * (N * N) - 1) :
    ∃ s, iter N rng n s0 = some s ∧ GenInv N sx sy s ∧
      2 * (visitedCells N s.maze).card = n + 1 + s.st.length := by
  induction n with
  | zero => exact ⟨s0, rfl, h0, hc0⟩
  | succ n ih =>
    obtain ⟨s, hs, hinv, hcnt⟩ := ih (by omega)
    have he : s.st ≠ [] := by
      intro he
      have hfull := visitedCells_card_full (all_visited_of_empty hinv he)
      rw [hfull, he] at hcnt
      simp only [List.length_nil] at hcnt
      omega
    obtain ⟨s', hs', hinv', hpot⟩ := step_inv rng hinv he
    exact ⟨s', by simp only [iter, hs, Option.some_bind, hs'], hinv', by omega⟩

/-- The loop exits after exactly `2 * N * N - 1` iterations, and every larger
number of iterations gives the same state. -/
theorem iter_exit {N : Nat} {sx sy : Int} (rng : Nat → Nat) {s0 : GenState}
    (h0 : GenInv N sx sy s0)
    (hc0 : 2 * (visitedCells N s0.maze).card = 0 + 1 + s0.st.length) :
    ∃ s, GenInv N sx sy s ∧ s.st = [] ∧ (visitedCells N s.maze).card = N * N ∧
      ∀ fuel, 2 * (N * N) - 1 ≤ fuel → iter N rng fuel s0 = some s := by
  obtain ⟨s, hs, hinv, hcnt⟩ := iter_count rng h0 hc0 (2 * (N * N) - 1) le_rfl
  have hle := visitedCells_card_le N s.maze
  have hpos : 0 < N * N := by
    obtain ⟨a, b, _, _⟩ := h0.start.1
    have : 0 < N := by omega
    positivity
  have hlen : s.st.length = 0 := by omega
  have he : s.st = [] := List.length_eq_zero.1 hlen
  refine ⟨s, hinv, he, by omega, ?_⟩
  intro fuel hf
  obtain ⟨k, rfl⟩ := Nat.exists_eq_add_of_le hf
  induction k with
  | zero => exact hs
  | succ k ih =>
    have := ih (by omega)
    rw [← Nat.add_assoc]
    simp only [iter, this, Option.some_bind, step_empty N rng he]

theorem passage_symm {N : Nat} {maze : List Cell} : Symmetric (passage N maze) := by
  rintro ⟨a1, a2⟩ ⟨b1, b2⟩ ⟨ha, hb, d, heq, h1, h2⟩
  obtain ⟨rfl, rfl⟩ := Prod.mk.inj heq
  obtain ⟨p, q⟩ := nb_back d a1 a2
  have e4 : d + 2 + 2 = d := (by decide : ∀ e : Fin 4, e + 2 + 2 = e) d
  refine ⟨hb, ha, d + 2, ?_, h2, ?_⟩
  · simp only [p, q]
  · rw [e4]; exact h1

theorem connected_of_inv {N : Nat} {sx sy : Int} {s : GenState}
    (h : GenInv N sx sy s) (he : s.st = []) : Connected N s.maze := by
  intro a b ha hb
  have hall := all_visited_of_empty h he
  have ra := h.reach a.1 a.2 ha (hall _ _ ha)
  have rb := h.reach b.1 b.2 hb (hall _ _ hb)
  exact Relation.ReflTransGen.trans (Relation.ReflTransGen.symmetric passage_symm ra) rb

/-! ## Generator: the claims -/

/-- C1: for every grid size `N`, every in-grid start cell and every sequence of
random choices, `generateMaze` (given enough loop iterations) returns a grid of
`N * N` cells that is a perfect maze: the passage graph is connected over all
`N * N` cells and has exactly `N * N - 1` edges. -/
theorem generateMaze_perfect (N : Nat) (old : List Cell) (sx sy : Int) (rng : Nat → Nat)
    (fuel : Nat) (hs : InB N sx sy) (hf : 2 * (N * N) - 1 ≤ fuel) :
    ∃ maze, generateMaze N old sx sy rng fuel = some maze ∧ maze.length = N * N ∧
      Connected N maze ∧ edgeCount N maze = N * N - 1 := by
  obtain ⟨s0, hs0, h0, hc0⟩ := init_inv old hs
  obtain ⟨s, hinv, he, hcard, hrun⟩ := iter_exit rng h0 hc0
  refine ⟨s.maze, ?_, hinv.len, connected_of_inv hinv he, ?_⟩
  · unfold generateMaze
    simp only [Option.bind_eq_bind, hs0, Option.some_bind, hrun fuel hf, he, List.isEmpty_nil,
      if_true]
  · have := hinv.edges
    omega

theorem generateMaze_perfect_witness :
    InB 10 0 0 ∧ 2 * (10 * 10) - 1 ≤ 199 ∧
      ∃ maze, generateMaze 10 [] 0 0 (fun k => k) 199 = some maze ∧ maze.length = 10 * 10 ∧
        Connected 10 maze ∧ edgeCount 10 maze = 10 * 10 - 1 :=
  ⟨by decide, by decide, generateMaze_perfect 10 [] 0 0 (fun k => k) 199 (by decide) (by decide)⟩

/-- C2: for every in-grid start cell and every sequence of random choices, the
grid after every number `n` of loop iterations satisfies shared-wall symmetry
(RIGHT of `(x, y)` equals LEFT of `(x + 1, y)`, TOP of `(x, y)` equals BOTTOM of
`(x, y + 1)`), and so does the grid that `generateMaze` returns. -/
theorem generateMaze_walls_agree (N : Nat) (old : List Cell) (sx sy : Int)
    (rng : Nat → Nat) (hs : InB N sx sy) :
    (∀ n : Nat, ∃ s0 s, initState N old sx sy = some s0 ∧ iter N rng n s0 = some s ∧
      WallsAgree N s.maze) ∧
    (∀ fuel : Nat, 2 * (N * N) - 1 ≤ fuel →
      ∃ maze, generateMaze N old sx sy rng fuel = some maze ∧ WallsAgree N maze) := by
  obtain ⟨s0, hs0, h0, hc0⟩ := init_inv old hs
  constructor
  · intro n
    obtain ⟨s, hit, hinv⟩ := iter_inv rng h0 n
    exact ⟨s0, s, hs0, hit, hinv.agree⟩
  · intro fuel hf
    obtain ⟨s, hinv, he, _, hrun⟩ := iter_exit rng h0 hc0
    refine ⟨s.maze, ?_, hinv.agree⟩
    unfold generateMaze
    simp only [Option.bind_eq_bind, hs0, Option.some_bind, hrun fuel hf, he, List.isEmpty_nil,
      if_true]

theorem generateMaze_walls_agree_witness :
    InB 10 0 0 ∧
    ((∀ n : Nat, ∃ s0 s, initState 10 [] 0 0 = some s0 ∧ iter 10 (fun k => k) n s0 = some s ∧
      WallsAgree 10 s.maze) ∧
    (∀ fuel : Nat, 2 * (10 * 10) - 1 ≤ fuel →
      ∃ maze, generateMaze 10 [] 0 0 (fun k => k) fuel = some maze ∧ WallsAgree 10 maze)) :=
  ⟨by decide, generateMaze_walls_agree 10 [] 0 0 (fun k => k) (by decide)⟩

/-- C10: for every in-grid start cell and every sequence of random choices the
loop of `generateMaze` terminates: after exactly `2 * N * N - 1` iterations the
stack is empty, every cell is marked visited and exactly `N * N - 1`
carve-and-push steps have been made, and `generateMaze` returns that grid for
every larger iteration budget.  After any number of iterations the stack is
non-empty while some cell is unvisited, it is non-empty before iteration
`2 * N * N - 1`, and the number of cells marked so far (one more than the number
of carve-and-push steps) is at most `N * N`. -/
theorem generateMaze_terminates (N : Nat) (old : List Cell) (sx sy : Int)
    (rng : Nat → Nat) (hs : InB N sx sy) :
    ∃ s0 sT, initState N old sx sy = some s0 ∧
      iter N rng (2 * (N * N) - 1) s0 = some sT ∧ sT.st = [] ∧
      (∀ x y, InB N x y → (cellAt N sT.maze x y).visited = true) ∧
      sT.draws = N * N - 1 ∧
      (∀ fuel : Nat, 2 * (N * N) - 1 ≤ fuel →
        generateMaze N old sx sy rng fuel = some sT.maze) ∧
      (∀ n : Nat, ∃ s, iter N rng n s0 = some s ∧
        ((∃ x y, InB N x y ∧ (cellAt N s.maze x y).visited = false) → s.st ≠ []) ∧
        (n < 2 * (N * N) - 1 → s.st ≠ []) ∧
        s.draws + 1 = (visitedCells N s.maze).card ∧
        (visitedCells N s.maze).card ≤ N * N) := by
  obtain ⟨s0, hs0, h0, hc0⟩ := init_inv old hs
  obtain ⟨sT, hinv, he, hcard, hrun⟩ := iter_exit rng h0 hc0
  refine ⟨s0, sT, hs0, hrun _ le_rfl, he, all_visited_of_empty hinv he, ?_, ?_, ?_⟩
  · have := hinv.draws
    omega
  · intro fuel hf
    unfold generateMaze
    simp only [Option.bind_eq_bind, hs0, Option.some_bind, hrun fuel hf, he, List.isEmpty_nil,
      if_true]
  · intro n
    obtain ⟨s, hit, hi⟩ := iter_inv rng h0 n
    refine ⟨s, hit, ?_, ?_, hi.draws, visitedCells_card_le N s.maze⟩
    · rintro ⟨x, y, hxy, hv⟩ hemp
      rw [all_visited_of_empty hi hemp x y hxy] at hv
      exact absurd hv (by simp)
    · intro hn hemp
      obtain ⟨s', hit', hi', hcnt⟩ := iter_count rng h0 hc0 n (le_of_lt hn)
      rw [hit] at hit'
      obtain rfl := Option.some.inj hit'
      have hfull := visitedCells_card_full (all_visited_of_empty hi hemp)
      rw [hfull, hemp] at hcnt
      simp only [List.length_nil] at hcnt
      omega

theorem generateMaze_terminates_witness :
    InB 10 3 4 ∧
    ∃ s0 sT, initState 10 [] 3 4 = some s0 ∧
      iter 10 (fun k => 7 * k + 1) (2 * (10 * 10) - 1) s0 = some sT ∧ sT.st = [] ∧
      (∀ x y, InB 10 x y → (cellAt 10 sT.maze x y).visited = true) ∧
      sT.draws = 10 * 10 - 1 ∧
      (∀ fuel : Nat, 2 * (10 * 10) - 1 ≤ fuel →
        generateMaze 10 [] 3 4 (fun k => 7 * k + 1) fuel = some sT.maze) ∧
      (∀ n : Nat, ∃ s, iter 10 (fun k => 7 * k + 1) n s0 = some s ∧
        ((∃ x y, InB 10 x y ∧ (cellAt 10 s.maze x y).visited = false) → s.st ≠ []) ∧
        (n < 2 * (10 * 10) - 1 → s.st ≠ []) ∧
        s.draws + 1 = (visitedCells 10 s.maze).card ∧
        (visitedCells 10 s.maze).card ≤ 10 * 10) :=
  ⟨by decide, generateMaze_terminates 10 [] 3 4 (fun k => 7 * k + 1) (by decide)⟩


/-! ## Reading the grid in the builders -/

theorem mem_cellOrder {N : Nat} {p : Int × Int} : p ∈ cellOrder N ↔ InB N p.1 p.2 := by
  unfold cellOrder InB
  simp only [List.mem_flatMap, List.mem_range, List.mem_map]
  constructor
  · rintro ⟨y, hy, x, hx, rfl⟩
    simp only
    omega
  · rintro ⟨h1, h2, h3, h4⟩
    refine ⟨p.2.toNat, by omega, p.1.toNat, by omega, ?_⟩
    apply Prod.ext
    · simp only; omega
    · simp only; omega

theorem foldlM_read {β : Type} {N : Nat} {maze : List Cell} (hl : maze.length = N * N)
    (f : Int → Int → Cell → β → β) (l : List (Int × Int))
    (hin : ∀ p ∈ l, InB N p.1 p.2) (init : β) :
    l.foldlM (fun b p => (readCell maze (idx N p.1 p.2)).map fun c => f p.1 p.2 c b) init =
      some (l.foldl (fun b p => f p.1 p.2 (cellAt N maze p.1 p.2) b) init) := by
  induction l generalizing init with
  | nil => rfl
  | cons p rest ih =>
    rw [List.foldlM_cons, readCell_eq_some hl (hin p (List.mem_cons_self _ _))]
    simp only [Option.map_some', Option.bind_eq_bind, Option.some_bind, List.foldl_cons]
    exact ih (fun r hr => hin r (List.mem_cons_of_mem _ hr)) _

theorem finRange_four : List.finRange 4 = [0, 1, 2, 3] := by decide

/-! ## Shape of the mesh buffers -/

theorem q_verts (m : MeshBuf) (a b c d : Vec3) :
    (q m a b c d).verts = m.verts ++ quadRow ⟨a, b, c, d⟩ := by
  simp [q, quadRow, List.enum, List.enumFrom]

theorem q_shape {quads : List Quad} {m : MeshBuf} (h : MeshShape quads m) (g : Quad) :
    MeshShape (quads ++ [g]) (q m g.a g.b g.c g.d) := by
  obtain ⟨h1, h2, h3⟩ := h
  refine ⟨?_, ?_, ?_⟩
  · rw [q_verts, h1, List.flatMap_append, List.flatMap_singleton]
  · show m.inds ++ _ = _
    rw [h2, h3, List.length_append, List.length_singleton, List.range_succ, List.flatMap_append,
      List.flatMap_singleton]
    rfl
  · show m.off + 4 = _
    rw [h3, List.length_append, List.length_singleton]
    omega

theorem vec3_add (a b c d e f : Int) :
    (⟨a, b, c⟩ : Vec3) + ⟨d, e, f⟩ = ⟨a + d, b + e, c + f⟩ := rfl

theorem quad_step {quads : List Quad} {m : MeshBuf} (h : MeshShape quads m) (w : Bool)
    (a b c d : Vec3) (g : Quad) (hg : g = ⟨a, b, c, d⟩) :
    MeshShape (quads ++ (if w then [g] else [])) (if w then q m a b c d else m) := by
  subst hg
  cases w with
  | false => simpa using h
  | true => simpa using q_shape h ⟨a, b, c, d⟩

theorem filter_walls (f : Fin 4 → Bool) :
    (List.finRange 4).filter f =
      (if f 0 then [0] else []) ++ ((if f 1 then [1] else []) ++
        ((if f 2 then [2] else []) ++ (if f 3 then [3] else []))) := by
  rw [finRange_four]
  cases h0 : f 0 <;> cases h1 : f 1 <;> cases h2 : f 2 <;> cases h3 : f 3 <;>
    simp [List.filter_cons, h0, h1, h2, h3]

theorem map_ite_singleton {α β : Type} (w : Bool) (a : α) (f : α → β) :
    (if w then [a] else []).map f = if w then [f a] else [] := by
  cases w <;> rfl

theorem cellQuads_shape {quads : List Quad} {m : MeshBuf} (h : MeshShape quads m)
    (x y : Int) (c : Cell) :
    MeshShape (quads ++ ((List.finRange 4).filter c.walls).map (wallQuad x y))
      (cellQuads x y c m) := by
  rw [filter_walls, List.map_append, List.map_append, List.map_append, map_ite_singleton,
    map_ite_singleton, map_ite_singleton, map_ite_singleton, ← List.append_assoc,
    ← List.append_assoc, ← List.append_assoc]
  unfold cellQuads
  have s0 := quad_step h (c.walls 0) ⟨x, 0, y⟩ ((⟨x, 0, y⟩ : Vec3) + ⟨0, 1, 0⟩)
    ((⟨x, 0, y⟩ : Vec3) + ⟨0, 1, 1⟩) ((⟨x, 0, y⟩ : Vec3) + ⟨0, 0, 1⟩) (wallQuad x y 0)
    (by simp [wallQuad, vec3_add])
  have s1 := quad_step s0 (c.walls 1) ⟨x, 0, y⟩ ((⟨x, 0, y⟩ : Vec3) + ⟨1, 0, 0⟩)
    ((⟨x, 0, y⟩ : Vec3) + ⟨1, 1, 0⟩) ((⟨x, 0, y⟩ : Vec3) + ⟨0, 1, 0⟩) (wallQuad x y 1)
    (by simp [wallQuad, vec3_add])
  have s2 := quad_step s1 (c.walls 2) ((⟨x, 0, y⟩ : Vec3) + ⟨1, 0, 1⟩)
    ((⟨x, 0, y⟩ : Vec3) + ⟨1, 1, 1⟩) ((⟨x, 0, y⟩ : Vec3) + ⟨1, 1, 0⟩)
    ((⟨x, 0, y⟩ : Vec3) + ⟨1, 0, 0⟩) (wallQuad x y 2) (by simp [wallQuad, vec3_add])
  have s3 := quad_step s2 (c.walls 3) ((⟨x, 0, y⟩ : Vec3) + ⟨0, 0, 1⟩)
    ((⟨x, 0, y⟩ : Vec3) + ⟨0, 1, 1⟩) ((⟨x, 0, y⟩ : Vec3) + ⟨1, 1, 1⟩)
    ((⟨x, 0, y⟩ : Vec3) + ⟨1, 0, 1⟩) (wallQuad x y 3) (by simp [wallQuad, vec3_add])
  exact s3

/-- The wall quads of the grid, in emission order. -/
theorem cells_fold_shape (N : Nat) (maze : List Cell) (l : List (Int × Int))
    {quads : List Quad} {m : MeshBuf} (h : MeshShape quads m) :
    MeshShape
      (quads ++ (l.flatMap fun p =>
        ((List.finRange 4).filter (cellAt N maze p.1 p.2).walls).map (wallQuad p.1 p.2)))
      (l.foldl (fun b p => cellQuads p.1 p.2 (cellAt N maze p.1 p.2) b) m) := by
  induction l generalizing quads m with
  | nil => simpa using h
  | cons p rest ih =>
    rw [List.foldl_cons, List.flatMap_cons, ← List.append_assoc]
    exact ih (cellQuads_shape h p.1 p.2 _)

theorem standingSlots_quads (N : Nat) (maze : List Cell) :
    (standingSlots N maze).map (fun s => wallQuad s.1 s.2.1 s.2.2) =
      (cellOrder N).flatMap fun p =>
        ((List.finRange 4).filter (cellAt N maze p.1 p.2).walls).map (wallQuad p.1 p.2) := by
  unfold standingSlots
  rw [List.map_flatMap]
  congr 1
  funext p
  rw [List.map_map]
  rfl

theorem foldl_push {α β : Type} (f : α → β) (l : List α) (init : List β) :
    l.foldl (fun acc i => acc ++ [f i]) init = init ++ l.map f := by
  induction l generalizing init with
  | nil => simp
  | cons a rest ih => rw [List.foldl_cons, ih, List.map_cons, List.append_assoc]; rfl

/-- The buffers that `buildMesh` returns for a grid of `N * N` cells: the wall
quads of the standing flags in emission order, the floor quad, and the 36 exit
indices behind the indices of these quads. -/
theorem buildMesh_eq {N : Nat} {maze : List Cell} (hl : maze.length = N * N) :
    ∃ m, buildMesh N maze = some m ∧
      m.verts = (((standingSlots N maze).map fun s => wallQuad s.1 s.2.1 s.2.2) ++
        [floorQuad N]).flatMap quadRow ∧
      m.inds = (List.range ((standingSlots N maze).length + 1)).flatMap sixOf ++
        iidx.map (fun i => 4 * ((standingSlots N maze).length + 1) + i) := by
  have h0 : MeshShape [] ({ verts := [], inds := [], off := 0 } : MeshBuf) :=
    ⟨rfl, rfl, rfl⟩
  have h1 := cells_fold_shape N maze (cellOrder N) h0
  rw [List.nil_append, ← standingSlots_quads] at h1
  obtain ⟨v, i, o⟩ := q_shape h1 (floorQuad N)
  rw [List.length_append, List.length_map, List.length_singleton] at i o
  unfold buildMesh
  rw [foldlM_read hl (fun x y c m => cellQuads x y c m) (cellOrder N)
    (fun p hp => mem_cellOrder.1 hp)]
  simp only [Option.bind_eq_bind, Option.some_bind]
  refine ⟨_, rfl, v, ?_⟩
  dsimp only
  rw [foldl_push]
  exact congrArg₂ (fun (a : List Nat) (b : Nat) => a ++ iidx.map (fun i => b + i)) i o


/-! ## Counting the standing walls -/

theorem readCell_nat (N : Nat) (maze : List Cell) (x y : Nat) :
    readCell maze (idx N (x : Int) (y : Int)) = maze[y * N + x]? := by
  have e : idx N (x : Int) (y : Int) = ((y * N + x : Nat) : Int) := by
    unfold idx; push_cast; rfl
  unfold readCell
  rw [e, if_pos (Int.natCast_nonneg _), Int.toNat_natCast]

theorem row_cells (N : Nat) (maze : List Cell) (k : Nat) (hk : (k + 1) * N ≤ maze.length) :
    (List.range N).map (fun (x : Nat) => cellAt N maze (x : Int) (k : Int)) =
      (maze.drop (k * N)).take N := by
  apply List.ext_getElem?
  intro i
  by_cases hi : i < N
  · rw [List.getElem?_map, List.getElem?_range hi, List.getElem?_take_of_lt hi,
      List.getElem?_drop]
    have hlt : k * N + i < maze.length := by
      have : (k + 1) * N = k * N + N := by ring
      omega
    unfold cellAt
    rw [Option.map_some', readCell_nat, List.getElem?_eq_getElem hlt]
    rfl
  · rw [List.getElem?_eq_none (by simp; omega), List.getElem?_take_eq_none (by omega)]

theorem rows_cells (N : Nat) (maze : List Cell) (k : Nat) (hk : k * N ≤ maze.length) :
    ((List.range k).flatMap fun (y : Nat) =>
        (List.range N).map fun (x : Nat) => ((x : Int), (y : Int))).map
      (fun p => cellAt N maze p.1 p.2) = maze.take (k * N) := by
  induction k with
  | zero => simp
  | succ k ih =>
    have e : (k + 1) * N = k * N + N := by ring
    rw [List.range_succ, List.flatMap_append, List.flatMap_singleton, List.map_append,
      ih (by omega), e, List.take_add, List.map_map]
    congr 1
    exact row_cells N maze k (by omega)

/-- Reading the cells in the order of the builders gives the vector itself. -/
theorem cells_eq {N : Nat} {maze : List Cell} (hl : maze.length = N * N) :
    (cellOrder N).map (fun p => cellAt N maze p.1 p.2) = maze := by
  unfold cellOrder
  rw [rows_cells N maze N (le_of_eq hl.symm), ← hl, List.take_length]

theorem length_flatMap_sum {α β : Type} (f : α → List β) (l : List α) :
    (l.flatMap f).length = (l.map fun a => (f a).length).sum := by
  induction l with
  | nil => rfl
  | cons a rest ih => simp [List.flatMap_cons, ih]

theorem standingSlots_length {N : Nat} {maze : List Cell} (hl : maze.length = N * N) :
    (standingSlots N maze).length = standingWalls maze := by
  unfold standingSlots standingWalls
  rw [length_flatMap_sum]
  conv_rhs => rw [← cells_eq hl]
  rw [List.map_map]
  congr 1
  apply List.map_congr_left
  intro p _
  simp only [List.length_map, Function.comp, wallCount, List.countP_eq_length_filter]

theorem mem_standingSlots {N : Nat} {maze : List Cell} {x y : Int} {d : Fin 4} :
    (x, y, d) ∈ standingSlots N maze ↔ InB N x y ∧ (cellAt N maze x y).walls d = true := by
  unfold standingSlots
  simp only [List.mem_flatMap, List.mem_map, List.mem_filter, List.mem_finRange, true_and,
    Prod.mk.injEq, mem_cellOrder]
  constructor
  · rintro ⟨p, hp, e, he, rfl, rfl, rfl⟩
    exact ⟨hp, he⟩
  · rintro ⟨h1, h2⟩
    exact ⟨(x, y), h1, d, h2, rfl, rfl, rfl⟩

/-! ## Slices of buffers of fixed-width records -/

theorem drop_flatMap_fixed {α β : Type} (f : α → List β) (w : Nat)
    (hw : ∀ a, (f a).length = w) (l : List α) (k : Nat) :
    (l.flatMap f).drop (w * k) = (l.drop k).flatMap f := by
  induction l generalizing k with
  | nil => simp
  | cons a rest ih =>
    cases k with
    | zero => simp
    | succ k =>
      have e : w * (k + 1) = (f a).length + w * k := by rw [hw a]; ring
      rw [List.flatMap_cons, e, List.drop_append, ih, List.drop_succ_cons]

theorem slice_flatMap_fixed {α β : Type} (f : α → List β) (w : Nat)
    (hw : ∀ a, (f a).length = w) (l : List α) (k : Nat) (a : α) (ha : l[k]? = some a) :
    ∃ rest, (l.flatMap f).drop (w * k) = f a ++ rest := by
  obtain ⟨hk, hget⟩ := List.getElem?_eq_some.1 ha
  rw [drop_flatMap_fixed f w hw, List.drop_eq_getElem_cons hk, hget, List.flatMap_cons]
  exact ⟨_, rfl⟩

theorem vertexAt_quads (Q : List Quad) (k : Nat) (g : Quad) (hg : Q[k]? = some g) :
    vertexAt (Q.flatMap quadRow) (4 * k) = some (g.a, 0, 0) ∧
    vertexAt (Q.flatMap quadRow) (4 * k + 1) = some (g.b, 1, 0) ∧
    vertexAt (Q.flatMap quadRow) (4 * k + 2) = some (g.c, 1, 1) ∧
    vertexAt (Q.flatMap quadRow) (4 * k + 3) = some (g.d, 0, 1) := by
  obtain ⟨rest, hr⟩ := slice_flatMap_fixed quadRow 20 (fun _ => rfl) Q k g hg
  have e0 : 5 * (4 * k) = 20 * k + 0 := by ring
  have e1 : 5 * (4 * k + 1) = 20 * k + 5 := by ring
  have e2 : 5 * (4 * k + 2) = 20 * k + 10 := by ring
  have e3 : 5 * (4 * k + 3) = 20 * k + 15 := by ring
  unfold vertexAt
  rw [e0, e1, e2, e3, ← List.drop_drop, ← List.drop_drop, ← List.drop_drop, ← List.drop_drop, hr]
  simp [quadRow]

theorem vertexAt_none (verts : List Int) (i : Nat) (h : verts.length ≤ 5 * i) :
    vertexAt verts i = none := by
  unfold vertexAt
  rw [List.drop_eq_nil_of_le h]
  rfl

theorem sixOf_slice (n k : Nat) (hk : k < n) (rest : List Nat) :
    (((List.range n).flatMap sixOf ++ rest).drop (6 * k)).take 6 = sixOf k := by
  obtain ⟨tl, ht⟩ := slice_flatMap_fixed sixOf 6 (fun _ => rfl) (List.range n) k k
    (List.getElem?_range hk)
  have hlen : 6 * k ≤ ((List.range n).flatMap sixOf).length := by
    have := congrArg List.length ht
    rw [List.length_drop, List.length_append] at this
    have h6 : (sixOf k).length = 6 := rfl
    omega
  rw [List.drop_append_of_le_length hlen, ht, List.append_assoc]
  exact List.take_left' rfl


/-! ## Shape of the minimap buffer -/

theorem cellSegments_eq (x y : Int) (c : Cell) (mv : List Int) :
    cellSegments x y c mv =
      mv ++ (List.finRange 4).flatMap fun d => if c.walls d then segmentOf x y d else [] := by
  rw [finRange_four]
  unfold cellSegments
  cases h0 : c.walls 0 <;> cases h1 : c.walls 1 <;> cases h2 : c.walls 2 <;>
    cases h3 : c.walls 3 <;> simp [segmentOf, h0, h1, h2, h3]

theorem segments_fold (N : Nat) (maze : List Cell) (l : List (Int × Int)) (init : List Int) :
    l.foldl (fun mv p => cellSegments p.1 p.2 (cellAt N maze p.1 p.2) mv) init =
      init ++ l.flatMap fun p => (List.finRange 4).flatMap fun d =>
        if (cellAt N maze p.1 p.2).walls d then segmentOf p.1 p.2 d else [] := by
  induction l generalizing init with
  | nil => simp
  | cons p rest ih =>
    rw [List.foldl_cons, ih, cellSegments_eq, List.flatMap_cons, List.append_assoc]

theorem buildMinimap_eq {N : Nat} {maze : List Cell} (hl : maze.length = N * N) :
    buildMinimap N maze = some (minimapSpec N maze) := by
  unfold buildMinimap
  rw [foldlM_read hl (fun x y c mv => cellSegments x y c mv) (cellOrder N)
    (fun p hp => mem_cellOrder.1 hp), segments_fold, List.nil_append]
  rfl

theorem flatMap_ite_filter {α β : Type} (p : α → Bool) (f : α → List β) (l : List α) :
    (l.flatMap fun a => if p a then f a else []) = (l.filter p).flatMap f := by
  induction l with
  | nil => rfl
  | cons a rest ih =>
    cases h : p a <;> simp [List.flatMap_cons, List.filter_cons, h, ih]

theorem flatMap_flatMap_map {α β γ δ : Type} (l : List α) (g : α → List β) (h : α → β → γ)
    (f : γ → List δ) :
    (l.flatMap fun a => ((g a).map (h a)).flatMap f) =
      (l.flatMap fun a => (g a).flatMap fun b => f (h a b)) := by
  induction l with
  | nil => rfl
  | cons a rest ih =>
    rw [List.flatMap_cons, List.flatMap_cons, ih, List.flatMap_map]

/-- The minimap of the specification lists one segment per standing flag, in the
order of the flags. -/
theorem minimapSpec_slots (N : Nat) (maze : List Cell) :
    minimapSpec N maze =
      (standingSlots N maze).flatMap fun s => segmentOf s.1 s.2.1 s.2.2 := by
  unfold minimapSpec standingSlots
  rw [List.flatMap_assoc, flatMap_flatMap_map]
  congr 1
  funext p
  exact flatMap_ite_filter _ _ _

theorem length_flatMap_fixed {α β : Type} (f : α → List β) (w : Nat)
    (hw : ∀ a, (f a).length = w) (l : List α) :
    (l.flatMap f).length = w * l.length := by
  induction l with
  | nil => rfl
  | cons a rest ih =>
    rw [List.flatMap_cons, List.length_append, ih, hw a, List.length_cons]
    ring

theorem segmentOf_length (x y : Int) (d : Fin 4) : (segmentOf x y d).length = 4 := by
  rcases fin4_cases d with rfl | rfl | rfl | rfl <;> rfl


/-! ## Mesh and minimap: the claims -/

theorem quads_length {N : Nat} {maze : List Cell} (hl : maze.length = N * N) :
    (((standingSlots N maze).map fun s => wallQuad s.1 s.2.1 s.2.2) ++ [floorQuad N]).length =
      standingWalls maze + 1 := by
  rw [List.length_append, List.length_map, standingSlots_length hl, List.length_singleton]

theorem iidx_dedup : iidx.dedup.length = 8 := by decide

/-- C3, what the code does: for every grid of `N * N` cells the last 36 entries of
`inds` are `off + iidx[i]` with `off = 4 * (W + 1)` the number of vertices in
`verts`; they take exactly 8 distinct values, and none of them is the position of
a vertex of `verts`, whose `5 * 4 * (W + 1)` floats end before the first of them.
The corners `e[8]` of the exit cube are never appended. -/
theorem buildMesh_exit_indices_dangling (N : Nat) (maze : List Cell)
    (hl : maze.length = N * N) :
    ∃ m, buildMesh N maze = some m ∧
      m.verts.length = 5 * (4 * (standingWalls maze + 1)) ∧
      m.inds.drop (m.inds.length - 36) =
        iidx.map (fun i => 4 * (standingWalls maze + 1) + i) ∧
      (m.inds.drop (m.inds.length - 36)).length = 36 ∧
      (m.inds.drop (m.inds.length - 36)).dedup.length = 8 ∧
      ∀ i ∈ m.inds.drop (m.inds.length - 36),
        m.verts.length ≤ 5 * i ∧ vertexAt m.verts i = none := by
  obtain ⟨m, hm, hv, hi⟩ := buildMesh_eq hl
  have hvl : m.verts.length = 5 * (4 * (standingWalls maze + 1)) := by
    rw [hv, length_flatMap_fixed quadRow 20 (fun _ => rfl), quads_length hl]
    ring
  have hdrop : m.inds.drop (m.inds.length - 36) =
      iidx.map (fun i => 4 * (standingWalls maze + 1) + i) := by
    rw [hi, standingSlots_length hl, List.length_append, List.length_map]
    have h36 : iidx.length = 36 := rfl
    rw [h36, Nat.add_sub_cancel]
    exact List.drop_left _ _
  refine ⟨m, hm, hvl, hdrop, ?_, ?_, ?_⟩
  · rw [hdrop, List.length_map]; rfl
  · rw [hdrop, List.dedup_map_of_injective (fun a b hab => by simpa using hab),
      List.length_map, iidx_dedup]
  · intro i hi'
    rw [hdrop, List.mem_map] at hi'
    obtain ⟨j, _, rfl⟩ := hi'
    have hle : m.verts.length ≤ 5 * (4 * (standingWalls maze + 1) + j) := by
      rw [hvl]; omega
    exact ⟨hle, vertexAt_none _ _ hle⟩

theorem buildMesh_exit_indices_dangling_witness :
    (List.replicate (10 * 10) ({} : Cell)).length = 10 * 10 ∧
    ∃ m, buildMesh 10 (List.replicate (10 * 10) ({} : Cell)) = some m ∧
      m.verts.length = 5 * (4 * (standingWalls (List.replicate (10 * 10) ({} : Cell)) + 1)) ∧
      m.inds.drop (m.inds.length - 36) =
        iidx.map (fun i => 4 * (standingWalls (List.replicate (10 * 10) ({} : Cell)) + 1) + i) ∧
      (m.inds.drop (m.inds.length - 36)).length = 36 ∧
      (m.inds.drop (m.inds.length - 36)).dedup.length = 8 ∧
      ∀ i ∈ m.inds.drop (m.inds.length - 36),
        m.verts.length ≤ 5 * i ∧ vertexAt m.verts i = none :=
  ⟨by simp, buildMesh_exit_indices_dangling 10 (List.replicate (10 * 10) ({} : Cell)) (by simp)⟩

/-- C4: for every grid of `N * N` cells with `W` wall flags set, `buildMinimap`
emits exactly `W` segments (`miniVerts` has `4 * W` floats) and `buildMesh` emits
exactly `W` wall quads besides the floor quad: `verts` has `20 * (W + 1)` floats
and `inds` has `6 * (W + 1) + 36` entries, `6 * W` of them before the floor quad
and the 36 exit indices. -/
theorem wall_count_correspondence (N : Nat) (maze : List Cell) (hl : maze.length = N * N) :
    ∃ mv m, buildMinimap N maze = some mv ∧ buildMesh N maze = some m ∧
      mv.length = 4 * standingWalls maze ∧
      m.verts.length = 20 * (standingWalls maze + 1) ∧
      m.inds.length = 6 * (standingWalls maze + 1) + 36 ∧
      m.inds.length - 36 - 6 = 6 * standingWalls maze := by
  obtain ⟨m, hm, hv, hi⟩ := buildMesh_eq hl
  have hil : m.inds.length = 6 * (standingWalls maze + 1) + 36 := by
    rw [hi, List.length_append, length_flatMap_fixed sixOf 6 (fun _ => rfl), List.length_range,
      standingSlots_length hl, List.length_map]
    rfl
  refine ⟨minimapSpec N maze, m, buildMinimap_eq hl, hm, ?_, ?_, hil, by omega⟩
  · rw [minimapSpec_slots, length_flatMap_fixed _ 4 (fun s => segmentOf_length _ _ _),
      standingSlots_length hl]
  · rw [hv, length_flatMap_fixed quadRow 20 (fun _ => rfl), quads_length hl]

theorem wall_count_correspondence_witness :
    (List.replicate (10 * 10) ({} : Cell)).length = 10 * 10 ∧
    ∃ mv m, buildMinimap 10 (List.replicate (10 * 10) ({} : Cell)) = some mv ∧
      buildMesh 10 (List.replicate (10 * 10) ({} : Cell)) = some m ∧
      mv.length = 4 * standingWalls (List.replicate (10 * 10) ({} : Cell)) ∧
      m.verts.length = 20 * (standingWalls (List.replicate (10 * 10) ({} : Cell)) + 1) ∧
      m.inds.length = 6 * (standingWalls (List.replicate (10 * 10) ({} : Cell)) + 1) + 36 ∧
      m.inds.length - 36 - 6 = 6 * standingWalls (List.replicate (10 * 10) ({} : Cell)) :=
  ⟨by simp, wall_count_correspondence 10 (List.replicate (10 * 10) ({} : Cell)) (by simp)⟩

theorem cellAt_nat (N : Nat) (maze : List Cell) (x y : Nat) :
    cellAt N maze (x : Int) (y : Int) = maze.getD (y * N + x) {} := by
  unfold cellAt
  rw [readCell_nat, List.getD_eq_getElem?_getD]

/-- The segment list written on the raw vector is the one the builders' loops
give. -/
theorem minimapRowMajor_eq (N : Nat) (maze : List Cell) :
    minimapRowMajor N maze = minimapSpec N maze := by
  unfold minimapRowMajor minimapSpec cellOrder
  rw [List.flatMap_assoc]
  congr 1
  funext y
  rw [List.flatMap_map]
  congr 1
  funext x
  simp only [Function.comp, cellAt_nat]

/-- C7: for every grid of `N * N` cells the segment list built by `buildMinimap`
is exactly the concatenation, over rows `y = 0 .. N - 1` and within a row over
cells `x = 0 .. N - 1` (row-major order, `y` outer, `x` inner) and within a cell
over directions LEFT, BOTTOM, RIGHT, TOP, of one segment per `true` wall flag of
entry `y * N + x` of the grid and nothing for a `false` flag: LEFT gives
`(x, y, x, y + 1)`, BOTTOM `(x, y, x + 1, y)`, RIGHT `(x + 1, y, x + 1, y + 1)`, TOP
`(x, y + 1, x + 1, y + 1)`.  Each cell emits from its own flags only: the RIGHT
segment of `(x, y)` and the LEFT segment of `(x + 1, y)` are the same segment and
both are listed (likewise TOP and BOTTOM). -/
theorem buildMinimap_spec (N : Nat) (maze : List Cell) (hl : maze.length = N * N) :
    buildMinimap N maze = some
      ((List.range N).flatMap fun (y : Nat) =>
        (List.range N).flatMap fun (x : Nat) =>
          (if (maze.getD (y * N + x) {}).walls 0 then [(x : Int), (y : Int), x, y + 1] else []) ++
          (if (maze.getD (y * N + x) {}).walls 1 then [(x : Int), (y : Int), x + 1, y] else []) ++
          (if (maze.getD (y * N + x) {}).walls 2 then [(x : Int) + 1, (y : Int), x + 1, y + 1]
            else []) ++
          (if (maze.getD (y * N + x) {}).walls 3 then [(x : Int), (y : Int) + 1, x + 1, y + 1]
            else [])) ∧
    buildMinimap N maze = some (minimapRowMajor N maze) ∧
    (∀ x y : Int, segmentOf x y 0 = [x, y, x, y + 1] ∧ segmentOf x y 1 = [x, y, x + 1, y] ∧
      segmentOf x y 2 = [x + 1, y, x + 1, y + 1] ∧
      segmentOf x y 3 = [x, y + 1, x + 1, y + 1] ∧
      segmentOf x y 2 = segmentOf (x + 1) y 0 ∧ segmentOf x y 3 = segmentOf x (y + 1) 1) := by
  have h : buildMinimap N maze = some (minimapRowMajor N maze) := by
    rw [minimapRowMajor_eq]; exact buildMinimap_eq hl
  refine ⟨?_, h, fun _ _ => ⟨rfl, rfl, rfl, rfl, rfl, rfl⟩⟩
  rw [h]
  unfold minimapRowMajor
  rw [finRange_four]
  simp only [List.flatMap_cons, List.flatMap_nil, List.append_nil, segmentOf, List.append_assoc]

theorem buildMinimap_spec_witness :
    ([({ walls := ![true, true, false, true], visited := true } : Cell),
      { walls := ![false, true, true, false], visited := true },
      { walls := ![true, true, false, true], visited := true },
      { walls := ![false, false, true, true], visited := true }].length = 2 * 2) ∧
    buildMinimap 2
      [({ walls := ![true, true, false, true], visited := true } : Cell),
        { walls := ![false, true, true, false], visited := true },
        { walls := ![true, true, false, true], visited := true },
        { walls := ![false, false, true, true], visited := true }] =
      some [0, 0, 0, 1, 0, 0, 1, 0, 0, 1, 1, 1, 1, 0, 2, 0, 2, 0, 2, 1,
        0, 1, 0, 2, 0, 1, 1, 1, 0, 2, 1, 2, 2, 1, 2, 2, 1, 2, 2, 2] := by
  refine ⟨rfl, ?_⟩
  rw [(buildMinimap_spec 2
      [({ walls := ![true, true, false, true], visited := true } : Cell),
        { walls := ![false, true, true, false], visited := true },
        { walls := ![true, true, false, true], visited := true },
        { walls := ![false, false, true, true], visited := true }] rfl).2.1]
  decide

theorem vec3_eq_iff (v : Vec3) (a b c : Int) :
    v = ⟨a, b, c⟩ ↔ v.x = a ∧ v.y = b ∧ v.z = c := by
  cases v
  simp

theorem wallQuad_corners (x y : Int) (d : Fin 4) (v : Vec3) :
    v ∈ [(wallQuad x y d).a, (wallQuad x y d).b, (wallQuad x y d).c, (wallQuad x y d).d] ↔
      IsWallCorner x y d v := by
  rcases fin4_cases d with rfl | rfl | rfl | rfl <;>
    simp only [wallQuad, IsWallCorner, List.mem_cons, List.mem_singleton, vec3_eq_iff,
      List.not_mem_nil, or_false] <;>
    constructor <;> intro h <;> omega

theorem wallQuad_nodup (x y : Int) (d : Fin 4) :
    [(wallQuad x y d).a, (wallQuad x y d).b, (wallQuad x y d).c, (wallQuad x y d).d].Nodup := by
  rcases fin4_cases d with rfl | rfl | rfl | rfl <;> simp [wallQuad]

/-- C8: for every grid of `N * N` cells, every standing wall flag `d` of an in-grid
cell `(x, y)` has a quad in the buffers of `buildMesh`, the `k`-th one for the
position `k < W` of the flag among the standing flags; its four vertices are the
four distinct corners of the unit square of that wall, one unit tall, and their
texture coordinates are in emission order `(0,0)`, `(1,0)`, `(1,1)`, `(0,1)`. -/
theorem buildMesh_wall_quads (N : Nat) (maze : List Cell) (hl : maze.length = N * N) :
    ∃ m, buildMesh N maze = some m ∧
      (∀ x y d, InB N x y → (cellAt N maze x y).walls d = true →
        ∃ k, k < standingWalls maze ∧ (standingSlots N maze)[k]? = some (x, y, d)) ∧
      (∀ k x y d, (standingSlots N maze)[k]? = some (x, y, d) →
        ∃ p0 p1 p2 p3 : Vec3,
          vertexAt m.verts (4 * k) = some (p0, 0, 0) ∧
          vertexAt m.verts (4 * k + 1) = some (p1, 1, 0) ∧
          vertexAt m.verts (4 * k + 2) = some (p2, 1, 1) ∧
          vertexAt m.verts (4 * k + 3) = some (p3, 0, 1) ∧
          [p0, p1, p2, p3].Nodup ∧
          (∀ v, v ∈ [p0, p1, p2, p3] ↔ IsWallCorner x y d v) ∧
          (m.inds.drop (6 * k)).take 6 = sixOf k) := by
  obtain ⟨m, hm, hv, hi⟩ := buildMesh_eq hl
  refine ⟨m, hm, ?_, ?_⟩
  · intro x y d hxy hw
    obtain ⟨k, hk⟩ := List.mem_iff_getElem?.1 (mem_standingSlots.2 ⟨hxy, hw⟩)
    obtain ⟨hlt, _⟩ := List.getElem?_eq_some.1 hk
    exact ⟨k, by rw [← standingSlots_length hl]; exact hlt, hk⟩
  · intro k x y d hk
    obtain ⟨hlt, hget⟩ := List.getElem?_eq_some.1 hk
    have hq : (((standingSlots N maze).map fun s => wallQuad s.1 s.2.1 s.2.2) ++
        [floorQuad N])[k]? = some (wallQuad x y d) := by
      rw [List.getElem?_append_left (by rw [List.length_map]; exact hlt), List.getElem?_map, hk]
      rfl
    obtain ⟨v0, v1, v2, v3⟩ := vertexAt_quads _ k _ hq
    rw [← hv] at v0 v1 v2 v3
    refine ⟨_, _, _, _, v0, v1, v2, v3, wallQuad_nodup x y d, wallQuad_corners x y d, ?_⟩
    rw [hi]
    exact sixOf_slice _ k (by omega) _

theorem buildMesh_wall_quads_witness :
    (List.replicate (10 * 10) ({} : Cell)).length = 10 * 10 ∧
    ∃ m, buildMesh 10 (List.replicate (10 * 10) ({} : Cell)) = some m ∧
      (∀ x y d, InB 10 x y → (cellAt 10 (List.replicate (10 * 10) ({} : Cell)) x y).walls d = true →
        ∃ k, k < standingWalls (List.replicate (10 * 10) ({} : Cell)) ∧
          (standingSlots 10 (List.replicate (10 * 10) ({} : Cell)))[k]? = some (x, y, d)) ∧
      (∀ k x y d, (standingSlots 10 (List.replicate (10 * 10) ({} : Cell)))[k]? = some (x, y, d) →
        ∃ p0 p1 p2 p3 : Vec3,
          vertexAt m.verts (4 * k) = some (p0, 0, 0) ∧
          vertexAt m.verts (4 * k + 1) = some (p1, 1, 0) ∧
          vertexAt m.verts (4 * k + 2) = some (p2, 1, 1) ∧
          vertexAt m.verts (4 * k + 3) = some (p3, 0, 1) ∧
          [p0, p1, p2, p3].Nodup ∧
          (∀ v, v ∈ [p0, p1, p2, p3] ↔ IsWallCorner x y d v) ∧
          (m.inds.drop (6 * k)).take 6 = sixOf k) :=
  ⟨by simp, buildMesh_wall_quads 10 (List.replicate (10 * 10) ({} : Cell)) (by simp)⟩

/-- C9: for every grid of `N * N` cells with `W` standing wall flags, `inds` has
`6 * (W + 1)` entries before the last 36; for `k = 0..W` the `k`-th group of six is
`(4k, 4k+1, 4k+2, 4k, 4k+2, 4k+3)`, all positions of vertices of `verts`, and the
last group (`k = W`) is the floor quad with vertices `(0,0,0)`, `(N,0,0)`,
`(N,0,N)`, `(0,0,N)` at height `0`. -/
theorem buildMesh_walls_floor_indices (N : Nat) (maze : List Cell)
    (hl : maze.length = N * N) :
    ∃ m, buildMesh N maze = some m ∧
      m.inds.length = 6 * (standingWalls maze + 1) + 36 ∧
      (∀ k, k ≤ standingWalls maze →
        (m.inds.drop (6 * k)).take 6 = sixOf k ∧
        ∀ i ∈ sixOf k, (vertexAt m.verts i).isSome = true) ∧
      vertexAt m.verts (4 * standingWalls maze) = some (⟨0, 0, 0⟩, 0, 0) ∧
      vertexAt m.verts (4 * standingWalls maze + 1) = some (⟨N, 0, 0⟩, 1, 0) ∧
      vertexAt m.verts (4 * standingWalls maze + 2) = some (⟨N, 0, N⟩, 1, 1) ∧
      vertexAt m.verts (4 * standingWalls maze + 3) = some (⟨0, 0, N⟩, 0, 1) := by
  obtain ⟨m, hm, hv, hi⟩ := buildMesh_eq hl
  have hW := standingSlots_length hl
  have hil : m.inds.length = 6 * (standingWalls maze + 1) + 36 := by
    rw [hi, List.length_append, length_flatMap_fixed sixOf 6 (fun _ => rfl), List.length_range,
      hW, List.length_map]
    rfl
  have hfloor : (((standingSlots N maze).map fun s => wallQuad s.1 s.2.1 s.2.2) ++
      [floorQuad N])[standingWalls maze]? = some (floorQuad N) := by
    rw [List.getElem?_append_right (by rw [List.length_map, hW]), List.length_map, hW,
      Nat.sub_self]
    rfl
  obtain ⟨f0, f1, f2, f3⟩ := vertexAt_quads _ _ _ hfloor
  rw [← hv] at f0 f1 f2 f3
  refine ⟨m, hm, hil, ?_, f0, f1, f2, f3⟩
  intro k hk
  constructor
  · rw [hi, hW]
    exact sixOf_slice _ k (by omega) _
  · have hlt : k < (((standingSlots N maze).map fun s => wallQuad s.1 s.2.1 s.2.2) ++
        [floorQuad N]).length := by
      rw [quads_length hl]; omega
    obtain ⟨v0, v1, v2, v3⟩ := vertexAt_quads _ k _ (List.getElem?_eq_getElem hlt)
    rw [← hv] at v0 v1 v2 v3
    intro i hi'
    simp only [sixOf, List.mem_cons, List.mem_singleton, List.not_mem_nil, or_false] at hi'
    rcases hi' with rfl | rfl | rfl | rfl | rfl | rfl
    · rw [v0]; rfl
    · rw [v1]; rfl
    · rw [v2]; rfl
    · rw [v0]; rfl
    · rw [v2]; rfl
    · rw [v3]; rfl

theorem buildMesh_walls_floor_indices_witness :
    (List.replicate (10 * 10) ({} : Cell)).length = 10 * 10 ∧
    ∃ m, buildMesh 10 (List.replicate (10 * 10) ({} : Cell)) = some m ∧
      m.inds.length = 6 * (standingWalls (List.replicate (10 * 10) ({} : Cell)) + 1) + 36 ∧
      (∀ k, k ≤ standingWalls (List.replicate (10 * 10) ({} : Cell)) →
        (m.inds.drop (6 * k)).take 6 = sixOf k ∧
        ∀ i ∈ sixOf k, (vertexAt m.verts i).isSome = true) ∧
      vertexAt m.verts (4 * standingWalls (List.replicate (10 * 10) ({} : Cell))) =
        some (⟨0, 0, 0⟩, 0, 0) ∧
      vertexAt m.verts (4 * standingWalls (List.replicate (10 * 10) ({} : Cell)) + 1) =
        some (⟨((10 : Nat) : Int), 0, 0⟩, 1, 0) ∧
      vertexAt m.verts (4 * standingWalls (List.replicate (10 * 10) ({} : Cell)) + 2) =
        some (⟨((10 : Nat) : Int), 0, ((10 : Nat) : Int)⟩, 1, 1) ∧
      vertexAt m.verts (4 * standingWalls (List.replicate (10 * 10) ({} : Cell)) + 3) =
        some (⟨0, 0, ((10 : Nat) : Int)⟩, 0, 1) :=
  ⟨by simp, buildMesh_walls_floor_indices 10 (List.replicate (10 * 10) ({} : Cell)) (by simp)⟩


/-! ## Collision system: overlap test and scan -/

theorem AABB_iff_gap (minA maxA minB maxB : VecQ) :
    AABBvsAABB minA maxA minB maxB = true ↔ boxGap minA maxA minB maxB ≤ 0 := by
  unfold AABBvsAABB boxGap gapAxis
  simp only [Bool.and_eq_true, decide_eq_true_eq, max_le_iff, sub_nonpos, ge_iff_le]
  tauto

theorem cellHit_iff (minC maxC : VecQ) (x y : Int) (c : Cell) :
    cellHit minC maxC x y c = true ↔
      ∃ d : Fin 4, c.walls d = true ∧
        AABBvsAABB minC maxC (slabMin x y d) (slabMax x y d) = true := by
  unfold cellHit
  simp only [Bool.and_eq_true]
  constructor
  · intro h
    split_ifs at h with h0 h1 h2 h3
    · exact ⟨0, h0⟩
    · exact ⟨1, h1⟩
    · exact ⟨2, h2⟩
    · exact ⟨3, h3⟩
  · rintro ⟨d, hd⟩
    rcases fin4_cases d with rfl | rfl | rfl | rfl <;>
      simp only [slabMin, slabMax] at hd <;>
      split_ifs <;> rfl

theorem scan_true {N : Nat} {maze : List Cell} (hl : maze.length = N * N)
    (minC maxC : VecQ) {x y : Int} (hxy : InB N x y)
    (hit : cellHit minC maxC x y (cellAt N maze x y) = true) (l : List (Int × Int))
    (hmem : (x, y) ∈ l) : scanCells N maze minC maxC l = some true := by
  induction l with
  | nil => exact absurd hmem (List.not_mem_nil _)
  | cons p rest ih =>
    obtain ⟨a, b⟩ := p
    unfold scanCells
    by_cases hout : a < 0 ∨ b < 0 ∨ a ≥ (N : Int) ∨ b ≥ (N : Int)
    · rw [if_pos hout]
      rcases List.mem_cons.1 hmem with heq | hrest
      · obtain ⟨rfl, rfl⟩ := Prod.mk.inj heq
        unfold InB at hxy
        omega
      · exact ih hrest
    · rw [if_neg hout]
      have hab : InB N a b := by unfold InB; omega
      rw [readCell_eq_some hl hab, Option.some_bind]
      by_cases hh : cellHit minC maxC a b (cellAt N maze a b) = true
      · rw [if_pos hh]
      · rw [if_neg hh]
        rcases List.mem_cons.1 hmem with heq | hrest
        · obtain ⟨rfl, rfl⟩ := Prod.mk.inj heq
          exact absurd hit hh
        · exact ih hrest

theorem scan_false {N : Nat} {maze : List Cell} (hl : maze.length = N * N)
    (minC maxC : VecQ) (l : List (Int × Int))
    (hclear : ∀ p ∈ l, InB N p.1 p.2 →
      cellHit minC maxC p.1 p.2 (cellAt N maze p.1 p.2) = false) :
    scanCells N maze minC maxC l = some false := by
  induction l with
  | nil => rfl
  | cons p rest ih =>
    obtain ⟨a, b⟩ := p
    unfold scanCells
    have ih' := ih (fun r hr => hclear r (List.mem_cons_of_mem _ hr))
    by_cases hout : a < 0 ∨ b < 0 ∨ a ≥ (N : Int) ∨ b ≥ (N : Int)
    · rw [if_pos hout]; exact ih'
    · rw [if_neg hout]
      have hab : InB N a b := by unfold InB; omega
      rw [readCell_eq_some hl hab, Option.some_bind,
        hclear (a, b) (List.mem_cons_self _ _) hab]
      exact ih'

theorem mem_neighbourhood (cx cy : Int) (p : Int × Int) :
    p ∈ neighbourhood cx cy ↔
      (cx - 1 ≤ p.1 ∧ p.1 ≤ cx + 1) ∧ (cy - 1 ≤ p.2 ∧ p.2 ≤ cy + 1) := by
  obtain ⟨a, b⟩ := p
  unfold neighbourhood
  simp only [List.mem_flatMap, List.mem_map, List.mem_cons, List.mem_singleton,
    List.not_mem_nil, or_false, Prod.mk.injEq]
  constructor
  · rintro ⟨dy, hdy, dx, hdx, rfl, rfl⟩
    omega
  · rintro ⟨⟨h1, h2⟩, h3, h4⟩
    exact ⟨b - cy, by omega, a - cx, by omega, by omega, by omega⟩

theorem truncQ_near (x : Int) (hx : 0 ≤ x) (v : ℚ) (h1 : (x : ℚ) - 1 / 5 ≤ v)
    (h2 : v ≤ (x : ℚ) + 6 / 5) : x - 1 ≤ truncQ v ∧ truncQ v ≤ x + 1 := by
  unfold truncQ
  by_cases hv : 0 ≤ v
  · rw [if_pos hv]
    have f1 := Int.floor_le v
    have f2 := Int.lt_floor_add_one v
    constructor
    · have : ((x - 2 : Int) : ℚ) < ((⌊v⌋ : Int) : ℚ) := by push_cast; linarith
      have := Int.cast_lt.1 this
      omega
    · have : ((⌊v⌋ : Int) : ℚ) < ((x + 2 : Int) : ℚ) := by push_cast; linarith
      have := Int.cast_lt.1 this
      omega
  · rw [if_neg hv]
    have c1 := Int.le_ceil v
    have c2 := Int.ceil_lt_add_one v
    have hx0 : ((x : Int) : ℚ) < ((1 : Int) : ℚ) := by push_cast; linarith
    have hx0' := Int.cast_lt.1 hx0
    have hxe : x = 0 := by omega
    subst hxe
    constructor
    · have : (((-2 : Int)) : ℚ) < ((⌈v⌉ : Int) : ℚ) := by push_cast; push_cast at h1; linarith
      have := Int.cast_lt.1 this
      omega
    · have : ((⌈v⌉ : Int) : ℚ) < ((2 : Int) : ℚ) := by push_cast; push_cast at h1; linarith
      have := Int.cast_lt.1 this
      omega

theorem slab_bounds (x y : Int) (d : Fin 4) :
    (x : ℚ) ≤ (slabMin x y d).x ∧ (slabMax x y d).x ≤ (x : ℚ) + 1 ∧
    (y : ℚ) ≤ (slabMin x y d).z ∧ (slabMax x y d).z ≤ (y : ℚ) + 1 := by
  rcases fin4_cases d with rfl | rfl | rfl | rfl <;>
    simp only [slabMin, slabMax] <;> refine ⟨?_, ?_, ?_, ?_⟩ <;> linarith

/-- A standing wall of an in-grid cell whose slab the agent box touches or
overlaps makes `collidesWithMaze` return `true`. -/
theorem collides_of_gap_le {N : Nat} {maze : List Cell} (hl : maze.length = N * N)
    (pos : VecQ) {x y : Int} {d : Fin 4} (hxy : InB N x y)
    (hw : (cellAt N maze x y).walls d = true)
    (hgap : boxGap (agentMin pos) (agentMax pos) (slabMin x y d) (slabMax x y d) ≤ 0) :
    collidesWithMaze N maze pos = some true := by
  unfold collidesWithMaze
  refine scan_true hl _ _ hxy ((cellHit_iff _ _ _ _ _).2 ⟨d, hw, (AABB_iff_gap _ _ _ _).2 hgap⟩)
    _ ?_
  rw [mem_neighbourhood]
  obtain ⟨b1, b2, b3, b4⟩ := slab_bounds x y d
  unfold boxGap gapAxis agentMin agentMax at hgap
  simp only [max_le_iff, sub_nonpos] at hgap
  obtain ⟨⟨⟨g1, g2⟩, _⟩, g3, g4⟩ := hgap
  obtain ⟨hx0, _, hy0, _⟩ := hxy
  have tx := truncQ_near x hx0 pos.x (by linarith) (by linarith)
  have tz := truncQ_near y hy0 pos.z (by linarith) (by linarith)
  simp only
  omega

/-- With a positive gap to every standing wall slab of the in-grid cells of the
scanned neighbourhood, `collidesWithMaze` returns `false`. -/
theorem collides_of_gap_pos {N : Nat} {maze : List Cell} (hl : maze.length = N * N)
    (pos : VecQ)
    (hclear : ∀ p ∈ neighbourhood (truncQ pos.x) (truncQ pos.z), InB N p.1 p.2 →
      ∀ d : Fin 4, (cellAt N maze p.1 p.2).walls d = true →
        0 < boxGap (agentMin pos) (agentMax pos) (slabMin p.1 p.2 d) (slabMax p.1 p.2 d)) :
    collidesWithMaze N maze pos = some false := by
  unfold collidesWithMaze
  refine scan_false hl _ _ _ ?_
  intro p hp hin
  by_contra hne
  have hhit : cellHit (agentMin pos) (agentMax pos) p.1 p.2 (cellAt N maze p.1 p.2) = true := by
    simpa using hne
  obtain ⟨d, hw, hab⟩ := (cellHit_iff _ _ _ _ _).1 hhit
  have := hclear p hp hin d hw
  have := (AABB_iff_gap _ _ _ _).1 hab
  linarith


/-! ## Collision system: the claims -/

theorem truncQ_eq {v : ℚ} {t : Int} (h : IsTruncation v t) : truncQ v = t := by
  obtain ⟨h1, h2⟩ := h
  rw [abs_lt] at h2
  unfold truncQ
  by_cases hv : 0 ≤ v
  · rw [if_pos hv, Int.floor_eq_iff]
    rw [abs_of_nonneg hv] at h1
    have := le_abs_self (t : ℚ)
    constructor <;> linarith
  · rw [if_neg hv, Int.ceil_eq_iff]
    rw [abs_of_neg (not_le.1 hv)] at h1
    have := neg_abs_le (t : ℚ)
    constructor <;> linarith

/-- C5: over exact arithmetic, for every grid of `N * N` cells and every candidate
position `(x, y, z)`: if the agent box `[x - 1/5, x + 1/5] × [y - 1/2, y + 3/2] ×
[z - 1/5, z + 1/5]` touches (gap zero) or overlaps the slab of a standing wall of
some in-grid cell, `collidesWithMaze` returns `true`; and if that box has a
positive gap to every standing wall slab of the in-grid cells within one cell of
`(trunc x, trunc z)` (the 3x3 neighbourhood), it returns `false`. -/
theorem collision_boundary (N : Nat) (maze : List Cell) (pos : VecQ)
    (hl : maze.length = N * N) :
    (∀ (x y : Int) (d : Fin 4), InB N x y → (cellAt N maze x y).walls d = true →
      boxGap ⟨pos.x - 1 / 5, pos.y - 1 / 2, pos.z - 1 / 5⟩
        ⟨pos.x + 1 / 5, pos.y + 3 / 2, pos.z + 1 / 5⟩ (slabMin x y d) (slabMax x y d) ≤ 0 →
      collidesWithMaze N maze pos = some true) ∧
    (∀ cx cy : Int, IsTruncation pos.x cx → IsTruncation pos.z cy →
      (∀ x y : Int, InB N x y → cx - 1 ≤ x → x ≤ cx + 1 → cy - 1 ≤ y → y ≤ cy + 1 →
        ∀ d : Fin 4, (cellAt N maze x y).walls d = true →
          0 < boxGap ⟨pos.x - 1 / 5, pos.y - 1 / 2, pos.z - 1 / 5⟩
            ⟨pos.x + 1 / 5, pos.y + 3 / 2, pos.z + 1 / 5⟩ (slabMin x y d) (slabMax x y d)) →
      collidesWithMaze N maze pos = some false) := by
  constructor
  · intro x y d hxy hw hgap
    exact collides_of_gap_le hl pos hxy hw hgap
  · intro cx cy hcx hcy hclear
    refine collides_of_gap_pos hl pos ?_
    intro p hp hin d hw
    rw [truncQ_eq hcx, truncQ_eq hcy, mem_neighbourhood] at hp
    exact hclear p.1 p.2 hin hp.1.1 hp.1.2 hp.2.1 hp.2.2 d hw

theorem collision_boundary_witness :
    ([({} : Cell)].length = 1 * 1 ∧
      boxGap ⟨(21 / 100 : ℚ) - 1 / 5, (1 : ℚ) - 1 / 2, (1 / 2 : ℚ) - 1 / 5⟩
        ⟨(21 / 100 : ℚ) + 1 / 5, (1 : ℚ) + 3 / 2, (1 / 2 : ℚ) + 1 / 5⟩ (slabMin 0 0 0)
        (slabMax 0 0 0) = 0 ∧
      collidesWithMaze 1 [({} : Cell)] ⟨21 / 100, 1, 1 / 2⟩ = some true) ∧
    (IsTruncation (1 / 2) 0 ∧ collidesWithMaze 1 [({} : Cell)] ⟨1 / 2, 1, 1 / 2⟩ = some false) := by
  have touch : boxGap ⟨(21 / 100 : ℚ) - 1 / 5, (1 : ℚ) - 1 / 2, (1 / 2 : ℚ) - 1 / 5⟩
      ⟨(21 / 100 : ℚ) + 1 / 5, (1 : ℚ) + 3 / 2, (1 / 2 : ℚ) + 1 / 5⟩ (slabMin 0 0 0)
      (slabMax 0 0 0) = 0 := by
    norm_num [boxGap, gapAxis, slabMin, slabMax]
  have ht : IsTruncation (1 / 2) 0 := by
    unfold IsTruncation
    norm_num [abs_of_pos]
  refine ⟨⟨rfl, touch, ?_⟩, ht, ?_⟩
  · exact (collision_boundary 1 [({} : Cell)] ⟨21 / 100, 1, 1 / 2⟩ rfl).1 0 0 0 (by decide) rfl
      (le_of_eq touch)
  · refine (collision_boundary 1 [({} : Cell)] ⟨1 / 2, 1, 1 / 2⟩ rfl).2 0 0 ht ht ?_
    intro x y hin _ _ _ _ d _
    have ha : x = 0 := by unfold InB at hin; omega
    have hb : y = 0 := by unfold InB at hin; omega
    subst ha hb
    rcases fin4_cases d with rfl | rfl | rfl | rfl <;>
      norm_num [boxGap, gapAxis, slabMin, slabMax]

/-- C6 as stated fails: on the maze that `generateMaze` builds for `N = 10`, the
position `(-1/10, 1, 1/2)`, whose `x` lies outside the grid square `[0, 10]²`,
collides with the LEFT wall of cell `(0, 0)`. -/
theorem collides_outside_grid_counterexample :
    ∃ maze, generateMaze 10 [] 0 0 (fun k => k) 199 = some maze ∧
      ((-1 / 10 : ℚ) < 0) ∧ collidesWithMaze 10 maze ⟨-1 / 10, 1, 1 / 2⟩ = some true := by
  have hs : InB 10 0 0 := by decide
  obtain ⟨s0, hs0, h0, hc0⟩ := init_inv [] hs
  obtain ⟨s, hinv, he, _, hrun⟩ := iter_exit (fun k => k) h0 hc0
  refine ⟨s.maze, ?_, by norm_num, ?_⟩
  · unfold generateMaze
    simp only [Option.bind_eq_bind, hs0, Option.some_bind, hrun 199 (by decide), he,
      List.isEmpty_nil, if_true]
  · have hw : (cellAt 10 s.maze 0 0).walls 0 = true :=
      hinv.border 0 0 hs 0 (by decide)
    refine collides_of_gap_le hinv.len _ hs hw ?_
    norm_num [boxGap, gapAxis, agentMin, agentMax, slabMin, slabMax]

/-- C6 amended: for every grid of `N * N` cells and every query position whose
`(x, z)` lies outside the square `[-1/5, N + 1/5]²`, that is, farther from the
grid square than the half-extent `1/5` of the agent box, `collidesWithMaze`
returns `false`. -/
theorem collides_far_outside (N : Nat) (maze : List Cell) (pos : VecQ)
    (hl : maze.length = N * N)
    (hout : pos.x < -(1 / 5) ∨ (N : ℚ) + 1 / 5 < pos.x ∨ pos.z < -(1 / 5) ∨
      (N : ℚ) + 1 / 5 < pos.z) :
    collidesWithMaze N maze pos = some false := by
  refine collides_of_gap_pos hl pos ?_
  intro p _ hin d _
  obtain ⟨b1, b2, b3, b4⟩ := slab_bounds p.1 p.2 d
  obtain ⟨hx0, hx1, hy0, hy1⟩ := hin
  have qx0 : (0 : ℚ) ≤ (p.1 : ℚ) := by exact_mod_cast hx0
  have qx1 : (p.1 : ℚ) + 1 ≤ (N : ℚ) := by exact_mod_cast (by omega : p.1 + 1 ≤ (N : Int))
  have qy0 : (0 : ℚ) ≤ (p.2 : ℚ) := by exact_mod_cast hy0
  have qy1 : (p.2 : ℚ) + 1 ≤ (N : ℚ) := by exact_mod_cast (by omega : p.2 + 1 ≤ (N : Int))
  unfold boxGap gapAxis agentMin agentMax
  simp only [lt_max_iff, sub_pos]
  rcases hout with h | h | h | h
  · left; left; left; linarith
  · left; left; right; linarith
  · right; left; linarith
  · right; right; linarith

theorem collides_far_outside_witness :
    ([({} : Cell)].length = 1 * 1 ∧
      ((-3 / 10 : ℚ) < -(1 / 5) ∨ ((1 : Nat) : ℚ) + 1 / 5 < (-3 / 10 : ℚ) ∨
        (1 / 2 : ℚ) < -(1 / 5) ∨ ((1 : Nat) : ℚ) + 1 / 5 < (1 / 2 : ℚ))) ∧
    collidesWithMaze 1 [({} : Cell)] ⟨-3 / 10, 1, 1 / 2⟩ = some false :=
  ⟨⟨rfl, Or.inl (by norm_num)⟩,
    collides_far_outside 1 [({} : Cell)] ⟨-3 / 10, 1, 1 / 2⟩ rfl (Or.inl (by norm_num))⟩

/-! ## Perimeter, overlap test and regeneration: the claims -/

/-- C11: for every in-grid start cell and every sequence of random choices,
`generateMaze` never carves outward through the perimeter: in the result every
cell with `x = 0` has LEFT standing, every cell with `y = 0` has BOTTOM standing,
every cell with `x = N - 1` has RIGHT standing and every cell with `y = N - 1` has
TOP standing; in particular cell `(0, 0)` keeps LEFT and BOTTOM. -/
theorem generateMaze_perimeter (N : Nat) (old : List Cell) (sx sy : Int) (rng : Nat → Nat)
    (fuel : Nat) (hs : InB N sx sy) (hf : 2 * (N * N) - 1 ≤ fuel) :
    ∃ maze, generateMaze N old sx sy rng fuel = some maze ∧
      (∀ x y, InB N x y →
        (x = 0 → (cellAt N maze x y).walls 0 = true) ∧
        (y = 0 → (cellAt N maze x y).walls 1 = true) ∧
        (x = (N : Int) - 1 → (cellAt N maze x y).walls 2 = true) ∧
        (y = (N : Int) - 1 → (cellAt N maze x y).walls 3 = true)) ∧
      (cellAt N maze 0 0).walls 0 = true ∧ (cellAt N maze 0 0).walls 1 = true := by
  have d0 : dxOf (((0 : Fin 4).val : Nat) : Int) = -1 ∧ dyOf (((0 : Fin 4).val : Nat) : Int) = 0 := by
    decide
  have d1 : dxOf (((1 : Fin 4).val : Nat) : Int) = 0 ∧ dyOf (((1 : Fin 4).val : Nat) : Int) = -1 := by
    decide
  have d2 : dxOf (((2 : Fin 4).val : Nat) : Int) = 1 ∧ dyOf (((2 : Fin 4).val : Nat) : Int) = 0 := by
    decide
  have d3 : dxOf (((3 : Fin 4).val : Nat) : Int) = 0 ∧ dyOf (((3 : Fin 4).val : Nat) : Int) = 1 := by
    decide
  obtain ⟨s0, hs0, h0, hc0⟩ := init_inv old hs
  obtain ⟨s, hinv, he, _, hrun⟩ := iter_exit rng h0 hc0
  have hper : ∀ x y, InB N x y →
      (x = 0 → (cellAt N s.maze x y).walls 0 = true) ∧
      (y = 0 → (cellAt N s.maze x y).walls 1 = true) ∧
      (x = (N : Int) - 1 → (cellAt N s.maze x y).walls 2 = true) ∧
      (y = (N : Int) - 1 → (cellAt N s.maze x y).walls 3 = true) := by
    intro x y hxy
    refine ⟨fun hx => ?_, fun hy => ?_, fun hx => ?_, fun hy => ?_⟩
    · exact hinv.border x y hxy 0 (by rw [d0.1, d0.2]; unfold InB; omega)
    · exact hinv.border x y hxy 1 (by rw [d1.1, d1.2]; unfold InB; omega)
    · exact hinv.border x y hxy 2 (by rw [d2.1, d2.2]; unfold InB; omega)
    · exact hinv.border x y hxy 3 (by rw [d3.1, d3.2]; unfold InB; omega)
  have h00 : InB N 0 0 := by
    obtain ⟨a, b, c, d⟩ := hs
    exact ⟨le_refl _, by omega, le_refl _, by omega⟩
  refine ⟨s.maze, ?_, hper, (hper 0 0 h00).1 rfl, (hper 0 0 h00).2.1 rfl⟩
  unfold generateMaze
  simp only [Option.bind_eq_bind, hs0, Option.some_bind, hrun fuel hf, he, List.isEmpty_nil,
    if_true]

theorem generateMaze_perimeter_witness :
    InB 10 0 0 ∧ 2 * (10 * 10) - 1 ≤ 199 ∧
    ∃ maze, generateMaze 10 [] 0 0 (fun k => 3 * k) 199 = some maze ∧
      (∀ x y, InB 10 x y →
        (x = 0 → (cellAt 10 maze x y).walls 0 = true) ∧
        (y = 0 → (cellAt 10 maze x y).walls 1 = true) ∧
        (x = ((10 : Nat) : Int) - 1 → (cellAt 10 maze x y).walls 2 = true) ∧
        (y = ((10 : Nat) : Int) - 1 → (cellAt 10 maze x y).walls 3 = true)) ∧
      (cellAt 10 maze 0 0).walls 0 = true ∧ (cellAt 10 maze 0 0).walls 1 = true :=
  ⟨by decide, by decide,
    generateMaze_perimeter 10 [] 0 0 (fun k => 3 * k) 199 (by decide) (by decide)⟩

theorem interval_meet (lo1 hi1 lo2 hi2 : ℚ) (h1 : lo1 ≤ hi1) (h2 : lo2 ≤ hi2) :
    (lo1 ≤ hi2 ∧ lo2 ≤ hi1) ↔ ∃ t, (lo1 ≤ t ∧ t ≤ hi1) ∧ (lo2 ≤ t ∧ t ≤ hi2) := by
  constructor
  · rintro ⟨a, b⟩
    exact ⟨max lo1 lo2, ⟨le_max_left _ _, max_le h1 b⟩, ⟨le_max_right _ _, max_le a h2⟩⟩
  · rintro ⟨t, ⟨a, b⟩, c, d⟩
    exact ⟨le_trans a d, le_trans c b⟩

/-- C12: for all boxes `A = [minA, maxA]` and `B = [minB, maxB]` with
`minA ≤ maxA` and `minB ≤ maxB` componentwise, `AABBvsAABB` is `true` if and only
if on each of the axes `x`, `y`, `z` the closed intervals of `A` and `B` have a
common point; a single separated axis makes it `false`. -/
theorem AABBvsAABB_iff_axes (minA maxA minB maxB : VecQ)
    (hA : minA.x ≤ maxA.x ∧ minA.y ≤ maxA.y ∧ minA.z ≤ maxA.z)
    (hB : minB.x ≤ maxB.x ∧ minB.y ≤ maxB.y ∧ minB.z ≤ maxB.z) :
    (AABBvsAABB minA maxA minB maxB = true ↔
      (∃ t, (minA.x ≤ t ∧ t ≤ maxA.x) ∧ (minB.x ≤ t ∧ t ≤ maxB.x)) ∧
      (∃ t, (minA.y ≤ t ∧ t ≤ maxA.y) ∧ (minB.y ≤ t ∧ t ≤ maxB.y)) ∧
      (∃ t, (minA.z ≤ t ∧ t ≤ maxA.z) ∧ (minB.z ≤ t ∧ t ≤ maxB.z))) ∧
    ((maxA.x < minB.x ∨ maxB.x < minA.x ∨ maxA.y < minB.y ∨ maxB.y < minA.y ∨
        maxA.z < minB.z ∨ maxB.z < minA.z) →
      AABBvsAABB minA maxA minB maxB = false) := by
  have key : AABBvsAABB minA maxA minB maxB = true ↔
      (minA.x ≤ maxB.x ∧ minB.x ≤ maxA.x) ∧ (minA.y ≤ maxB.y ∧ minB.y ≤ maxA.y) ∧
        (minA.z ≤ maxB.z ∧ minB.z ≤ maxA.z) := by
    unfold AABBvsAABB
    simp only [Bool.and_eq_true, decide_eq_true_eq, ge_iff_le]
    tauto
  constructor
  · rw [key, interval_meet _ _ _ _ hA.1 hB.1, interval_meet _ _ _ _ hA.2.1 hB.2.1,
      interval_meet _ _ _ _ hA.2.2 hB.2.2]
  · intro hsep
    cases hb : AABBvsAABB minA maxA minB maxB with
    | false => rfl
    | true =>
      obtain ⟨⟨a, b⟩, ⟨c, d⟩, e, f⟩ := key.1 hb
      rcases hsep with h | h | h | h | h | h <;> linarith

theorem AABBvsAABB_iff_axes_witness :
    (((0 : ℚ) ≤ 1 ∧ (0 : ℚ) ≤ 1 ∧ (0 : ℚ) ≤ 1) ∧ ((1 : ℚ) ≤ 2 ∧ (0 : ℚ) ≤ 1 ∧ (0 : ℚ) ≤ 1)) ∧
    AABBvsAABB ⟨0, 0, 0⟩ ⟨1, 1, 1⟩ ⟨1, 0, 0⟩ ⟨2, 1, 1⟩ = true := by
  have hA : (0 : ℚ) ≤ 1 ∧ (0 : ℚ) ≤ 1 ∧ (0 : ℚ) ≤ 1 := ⟨by norm_num, by norm_num, by norm_num⟩
  have hB : (1 : ℚ) ≤ 2 ∧ (0 : ℚ) ≤ 1 ∧ (0 : ℚ) ≤ 1 := ⟨by norm_num, by norm_num, by norm_num⟩
  refine ⟨⟨hA, hB⟩, ?_⟩
  refine (AABBvsAABB_iff_axes ⟨0, 0, 0⟩ ⟨1, 1, 1⟩ ⟨1, 0, 0⟩ ⟨2, 1, 1⟩ hA hB).1.2 ⟨?_, ?_, ?_⟩
  · exact ⟨1, ⟨by norm_num, by norm_num⟩, by norm_num, by norm_num⟩
  · exact ⟨0, ⟨by norm_num, by norm_num⟩, by norm_num, by norm_num⟩
  · exact ⟨0, ⟨by norm_num, by norm_num⟩, by norm_num, by norm_num⟩

/-- C13: with the random source an explicit input, `generateMaze` is a function of
the start cell and the random choices only: for any two prior contents of the
global grid, the state on entry to the loop, the state after every number of
iterations and the returned grid are the same, so no wall or visited data of the
previous grid survives a regeneration. -/
theorem generateMaze_ignores_prior (N : Nat) (old1 old2 : List Cell) (sx sy : Int)
    (rng : Nat → Nat) :
    initState N old1 sx sy = initState N old2 sx sy ∧
    (∀ n : Nat, (initState N old1 sx sy).bind (iter N rng n) =
      (initState N old2 sx sy).bind (iter N rng n)) ∧
    (∀ fuel : Nat, generateMaze N old1 sx sy rng fuel = generateMaze N old2 sx sy rng fuel) :=
  ⟨rfl, fun _ => rfl, fun _ => rfl⟩

/-! ## Neighbourhood scan and movement: the claims -/

/-- The scan of the 3x3 neighbourhood returns what the scan of all cells returns. -/
theorem collides_eq_naive {N : Nat} {maze : List Cell} (hl : maze.length = N * N)
    (pos : VecQ) : collidesWithMaze N maze pos = some (collidesNaive N maze pos) := by
  cases h : collidesNaive N maze pos with
  | true =>
    unfold collidesNaive at h
    simp only [List.any_eq_true, Bool.and_eq_true] at h
    obtain ⟨p, hp, d, _, hw, hab⟩ := h
    exact collides_of_gap_le hl pos (mem_cellOrder.1 hp) hw ((AABB_iff_gap _ _ _ _).1 hab)
  | false =>
    refine collides_of_gap_pos hl pos ?_
    intro p _ hin d hw
    by_contra hgap
    have hab := (AABB_iff_gap (agentMin pos) (agentMax pos) (slabMin p.1 p.2 d)
      (slabMax p.1 p.2 d)).2 (not_lt.1 hgap)
    have : collidesNaive N maze pos = true := by
      unfold collidesNaive
      simp only [List.any_eq_true, Bool.and_eq_true]
      exact ⟨p, mem_cellOrder.2 hin, d, List.mem_finRange d, hw, hab⟩
    rw [h] at this
    exact absurd this (by simp)

/-- C15: the 3x3 neighbourhood restriction loses nothing: over exact arithmetic,
for every grid of `N * N` cells and every position (negative coordinates
included, the cell index being obtained by truncation toward zero),
`collidesWithMaze` returns the result of the naive scan that tests the agent box
against the slab of every standing wall of every cell. -/
theorem collidesWithMaze_refines_naive (N : Nat) (maze : List Cell) (pos : VecQ)
    (hl : maze.length = N * N) :
    collidesWithMaze N maze pos = some (collidesNaive N maze pos) :=
  collides_eq_naive hl pos

theorem collidesWithMaze_refines_naive_witness :
    (List.replicate (10 * 10) ({} : Cell)).length = 10 * 10 ∧
    collidesWithMaze 10 (List.replicate (10 * 10) ({} : Cell)) ⟨-1 / 10, 1, -1 / 10⟩ =
      some (collidesNaive 10 (List.replicate (10 * 10) ({} : Cell)) ⟨-1 / 10, 1, -1 / 10⟩) :=
  ⟨by simp, collidesWithMaze_refines_naive 10 (List.replicate (10 * 10) ({} : Cell))
    ⟨-1 / 10, 1, -1 / 10⟩ (by simp)⟩

/-- C14: for a fixed grid of `N * N` cells, the movement step of `processInput` is
accept/reject: for every previous position, key state and frame time it returns
either the full candidate position, and then `collidesWithMaze` is `false` at the
candidate, or exactly the previous position (the candidate collides); hence if
the previous position does not collide, the position after the step does not
collide either. -/
theorem processInput_accept_reject (N : Nat) (maze : List Cell) (cameraPos : VecQ)
    (deltaTime : ℚ) (flatFront right : VecQ) (keys : Keys) (hl : maze.length = N * N) :
    ∃ p, processInput N maze cameraPos deltaTime flatFront right keys = some p ∧
      ((p = moveCandidate cameraPos deltaTime flatFront right keys ∧
          collidesWithMaze N maze
            (moveCandidate cameraPos deltaTime flatFront right keys) = some false) ∨
        (p = cameraPos ∧
          collidesWithMaze N maze
            (moveCandidate cameraPos deltaTime flatFront right keys) = some true)) ∧
      (collidesWithMaze N maze cameraPos = some false →
        collidesWithMaze N maze p = some false) := by
  have hc := collides_eq_naive hl (moveCandidate cameraPos deltaTime flatFront right keys)
  have hp : processInput N maze cameraPos deltaTime flatFront right keys =
      some (if collidesNaive N maze (moveCandidate cameraPos deltaTime flatFront right keys)
        then cameraPos else moveCandidate cameraPos deltaTime flatFront right keys) := by
    unfold processInput
    simp only [hc, Option.map_some']
  cases hb : collidesNaive N maze (moveCandidate cameraPos deltaTime flatFront right keys) with
  | true =>
    rw [hb] at hp hc
    exact ⟨cameraPos, hp, Or.inr ⟨rfl, hc⟩, fun h => h⟩
  | false =>
    rw [hb] at hp hc
    exact ⟨_, hp, Or.inl ⟨rfl, hc⟩, fun _ => hc⟩

theorem processInput_accept_reject_witness :
    [({} : Cell)].length = 1 * 1 ∧
    ∃ p, processInput 1 [({} : Cell)] ⟨1 / 2, 1, 1 / 2⟩ (1 / 60) ⟨1, 0, 0⟩ ⟨0, 0, 1⟩
        ⟨true, false, false, false⟩ = some p ∧
      ((p = moveCandidate ⟨1 / 2, 1, 1 / 2⟩ (1 / 60) ⟨1, 0, 0⟩ ⟨0, 0, 1⟩
            ⟨true, false, false, false⟩ ∧
          collidesWithMaze 1 [({} : Cell)]
            (moveCandidate ⟨1 / 2, 1, 1 / 2⟩ (1 / 60) ⟨1, 0, 0⟩ ⟨0, 0, 1⟩
              ⟨true, false, false, false⟩) = some false) ∨
        (p = ⟨1 / 2, 1, 1 / 2⟩ ∧
          collidesWithMaze 1 [({} : Cell)]
            (moveCandidate ⟨1 / 2, 1, 1 / 2⟩ (1 / 60) ⟨1, 0, 0⟩ ⟨0, 0, 1⟩
              ⟨true, false, false, false⟩) = some true)) ∧
      (collidesWithMaze 1 [({} : Cell)] ⟨1 / 2, 1, 1 / 2⟩ = some false →
        collidesWithMaze 1 [({} : Cell)] p = some false) :=
  ⟨rfl, processInput_accept_reject 1 [({} : Cell)] ⟨1 / 2, 1, 1 / 2⟩ (1 / 60) ⟨1, 0, 0⟩
    ⟨0, 0, 1⟩ ⟨true, false, false, false⟩ rfl⟩


/-! ## Winding of the wall quads and agreement with the minimap: the claims -/

theorem vec3_sub (a b c d e f : Int) :
    (⟨a, b, c⟩ : Vec3) - ⟨d, e, f⟩ = ⟨a - d, b - e, c - f⟩ := rfl

theorem wallQuad_normals (x y : Int) (d : Fin 4) :
    triNormal (wallQuad x y d).a (wallQuad x y d).b (wallQuad x y d).c = inwardNormal d ∧
    triNormal (wallQuad x y d).a (wallQuad x y d).c (wallQuad x y d).d = inwardNormal d := by
  have i0 : inwardNormal 0 = ⟨1, 0, 0⟩ := by decide
  have i1 : inwardNormal 1 = ⟨0, 0, 1⟩ := by decide
  have i2 : inwardNormal 2 = ⟨-1, 0, 0⟩ := by decide
  have i3 : inwardNormal 3 = ⟨0, 0, -1⟩ := by decide
  rcases fin4_cases d with rfl | rfl | rfl | rfl
  · rw [i0]; simp [wallQuad, triNormal, cross, vec3_sub]
  · rw [i1]; simp [wallQuad, triNormal, cross, vec3_sub]
  · rw [i2]; simp [wallQuad, triNormal, cross, vec3_sub]
  · rw [i3]; simp [wallQuad, triNormal, cross, vec3_sub]

theorem slot_of_lt {N : Nat} {maze : List Cell} (hl : maze.length = N * N) {k : Nat}
    (hk : k < standingWalls maze) :
    ∃ x y d, (standingSlots N maze)[k]? = some (x, y, d) := by
  rw [← standingSlots_length hl] at hk
  exact ⟨_, _, _, List.getElem?_eq_getElem hk⟩

theorem quad_of_slot {N : Nat} {maze : List Cell} {k : Nat} {x y : Int} {d : Fin 4}
    (hk : (standingSlots N maze)[k]? = some (x, y, d)) :
    (((standingSlots N maze).map fun s => wallQuad s.1 s.2.1 s.2.2) ++
      [floorQuad N])[k]? = some (wallQuad x y d) := by
  obtain ⟨hlt, _⟩ := List.getElem?_eq_some.1 hk
  rw [List.getElem?_append_left (by rw [List.length_map]; exact hlt), List.getElem?_map, hk]
  rfl

/-- C16: for every grid of `N * N` cells and every wall quad emitted by
`buildMesh` (the `k`-th one, `k < W`, for the standing flag `d` of cell `(x, y)`),
with vertices `v0, v1, v2, v3` and index group `(4k, 4k+1, 4k+2, 4k, 4k+2, 4k+3)`,
the triangles `(v0, v1, v2)` and `(v0, v2, v3)` have the same normal, and this
normal is the unit vector from the wall into the interior of the cell that owns
the flag: `+x` for LEFT, `+z` for BOTTOM, `-x` for RIGHT, `-z` for TOP. -/
theorem buildMesh_winding (N : Nat) (maze : List Cell) (hl : maze.length = N * N) :
    ∃ m, buildMesh N maze = some m ∧
      (∀ k, k < standingWalls maze →
        ∃ (x y : Int) (d : Fin 4) (v0 v1 v2 v3 : Vec3) (t0 t1 t2 t3 : Int × Int),
          (standingSlots N maze)[k]? = some (x, y, d) ∧
          (m.inds.drop (6 * k)).take 6 =
            [4 * k, 4 * k + 1, 4 * k + 2, 4 * k, 4 * k + 2, 4 * k + 3] ∧
          vertexAt m.verts (4 * k) = some (v0, t0) ∧
          vertexAt m.verts (4 * k + 1) = some (v1, t1) ∧
          vertexAt m.verts (4 * k + 2) = some (v2, t2) ∧
          vertexAt m.verts (4 * k + 3) = some (v3, t3) ∧
          triNormal v0 v1 v2 = triNormal v0 v2 v3 ∧
          triNormal v0 v1 v2 = inwardNormal d) ∧
      inwardNormal 0 = ⟨1, 0, 0⟩ ∧ inwardNormal 1 = ⟨0, 0, 1⟩ ∧
      inwardNormal 2 = ⟨-1, 0, 0⟩ ∧ inwardNormal 3 = ⟨0, 0, -1⟩ := by
  obtain ⟨m, hm, hv, hi⟩ := buildMesh_eq hl
  refine ⟨m, hm, ?_, by decide, by decide, by decide, by decide⟩
  intro k hk
  obtain ⟨x, y, d, hs⟩ := slot_of_lt hl hk
  obtain ⟨v0, v1, v2, v3⟩ := vertexAt_quads _ k _ (quad_of_slot hs)
  rw [← hv] at v0 v1 v2 v3
  obtain ⟨n1, n2⟩ := wallQuad_normals x y d
  refine ⟨x, y, d, _, _, _, _, _, _, _, _, hs, ?_, v0, v1, v2, v3, by rw [n1, n2], n1⟩
  rw [hi]
  have hlt : k < (standingSlots N maze).length + 1 := by
    rw [standingSlots_length hl]; omega
  exact sixOf_slice _ k hlt _

theorem buildMesh_winding_witness :
    (List.replicate (10 * 10) ({} : Cell)).length = 10 * 10 ∧
    ∃ m, buildMesh 10 (List.replicate (10 * 10) ({} : Cell)) = some m ∧
      (∀ k, k < standingWalls (List.replicate (10 * 10) ({} : Cell)) →
        ∃ (x y : Int) (d : Fin 4) (v0 v1 v2 v3 : Vec3) (t0 t1 t2 t3 : Int × Int),
          (standingSlots 10 (List.replicate (10 * 10) ({} : Cell)))[k]? = some (x, y, d) ∧
          (m.inds.drop (6 * k)).take 6 =
            [4 * k, 4 * k + 1, 4 * k + 2, 4 * k, 4 * k + 2, 4 * k + 3] ∧
          vertexAt m.verts (4 * k) = some (v0, t0) ∧
          vertexAt m.verts (4 * k + 1) = some (v1, t1) ∧
          vertexAt m.verts (4 * k + 2) = some (v2, t2) ∧
          vertexAt m.verts (4 * k + 3) = some (v3, t3) ∧
          triNormal v0 v1 v2 = triNormal v0 v2 v3 ∧
          triNormal v0 v1 v2 = inwardNormal d) ∧
      inwardNormal 0 = ⟨1, 0, 0⟩ ∧ inwardNormal 1 = ⟨0, 0, 1⟩ ∧
      inwardNormal 2 = ⟨-1, 0, 0⟩ ∧ inwardNormal 3 = ⟨0, 0, -1⟩ :=
  ⟨by simp, buildMesh_winding 10 (List.replicate (10 * 10) ({} : Cell)) (by simp)⟩

theorem segment_quad_points (x y : Int) (d : Fin 4) :
    ∃ x1 y1 x2 y2 : Int, segmentOf x y d = [x1, y1, x2, y2] ∧
      ∀ pt : Int × Int, pt ∈ [(x1, y1), (x2, y2)] ↔
        pt ∈ [((wallQuad x y d).a.x, (wallQuad x y d).a.z),
          ((wallQuad x y d).b.x, (wallQuad x y d).b.z),
          ((wallQuad x y d).c.x, (wallQuad x y d).c.z),
          ((wallQuad x y d).d.x, (wallQuad x y d).d.z)] := by
  rcases fin4_cases d with rfl | rfl | rfl | rfl
  · refine ⟨x, y, x, y + 1, rfl, ?_⟩
    rintro ⟨a, b⟩
    simp only [wallQuad, List.mem_cons, List.mem_singleton, List.not_mem_nil, or_false,
      Prod.mk.injEq]
    constructor <;> intro h <;> omega
  · refine ⟨x, y, x + 1, y, rfl, ?_⟩
    rintro ⟨a, b⟩
    simp only [wallQuad, List.mem_cons, List.mem_singleton, List.not_mem_nil, or_false,
      Prod.mk.injEq]
    constructor <;> intro h <;> omega
  · refine ⟨x + 1, y, x + 1, y + 1, rfl, ?_⟩
    rintro ⟨a, b⟩
    simp only [wallQuad, List.mem_cons, List.mem_singleton, List.not_mem_nil, or_false,
      Prod.mk.injEq]
    constructor <;> intro h <;> omega
  · refine ⟨x, y + 1, x + 1, y + 1, rfl, ?_⟩
    rintro ⟨a, b⟩
    simp only [wallQuad, List.mem_cons, List.mem_singleton, List.not_mem_nil, or_false,
      Prod.mk.injEq]
    constructor <;> intro h <;> omega

/-- C17: the two derived representations agree wall by wall: for every grid of
`N * N` cells and every `k` below the number of standing wall flags, the two end
points of the `k`-th minimap segment built by `buildMinimap` are exactly the set
of `(x, z)` projections of the four vertices of the `k`-th wall quad built by
`buildMesh`. -/
theorem minimap_mesh_agree (N : Nat) (maze : List Cell) (hl : maze.length = N * N) :
    ∃ mv m, buildMinimap N maze = some mv ∧ buildMesh N maze = some m ∧
      ∀ k, k < standingWalls maze →
        ∃ (x1 y1 x2 y2 : Int) (v0 v1 v2 v3 : Vec3) (t0 t1 t2 t3 : Int × Int),
          (mv.drop (4 * k)).take 4 = [x1, y1, x2, y2] ∧
          vertexAt m.verts (4 * k) = some (v0, t0) ∧
          vertexAt m.verts (4 * k + 1) = some (v1, t1) ∧
          vertexAt m.verts (4 * k + 2) = some (v2, t2) ∧
          vertexAt m.verts (4 * k + 3) = some (v3, t3) ∧
          ∀ pt : Int × Int, pt ∈ [(x1, y1), (x2, y2)] ↔
            pt ∈ [(v0.x, v0.z), (v1.x, v1.z), (v2.x, v2.z), (v3.x, v3.z)] := by
  obtain ⟨m, hm, hv, _⟩ := buildMesh_eq hl
  refine ⟨minimapSpec N maze, m, buildMinimap_eq hl, hm, ?_⟩
  intro k hk
  obtain ⟨x, y, d, hs⟩ := slot_of_lt hl hk
  obtain ⟨v0, v1, v2, v3⟩ := vertexAt_quads _ k _ (quad_of_slot hs)
  rw [← hv] at v0 v1 v2 v3
  obtain ⟨x1, y1, x2, y2, hseg, hpts⟩ := segment_quad_points x y d
  obtain ⟨rest, hr⟩ := slice_flatMap_fixed (fun s : Int × Int × Fin 4 => segmentOf s.1 s.2.1 s.2.2)
    4 (fun s => segmentOf_length _ _ _) (standingSlots N maze) k (x, y, d) hs
  refine ⟨x1, y1, x2, y2, _, _, _, _, _, _, _, _, ?_, v0, v1, v2, v3, hpts⟩
  rw [minimapSpec_slots, hr]
  simp only
  rw [hseg]
  rfl

theorem minimap_mesh_agree_witness :
    (List.replicate (10 * 10) ({} : Cell)).length = 10 * 10 ∧
    ∃ mv m, buildMinimap 10 (List.replicate (10 * 10) ({} : Cell)) = some mv ∧
      buildMesh 10 (List.replicate (10 * 10) ({} : Cell)) = some m ∧
      ∀ k, k < standingWalls (List.replicate (10 * 10) ({} : Cell)) →
        ∃ (x1 y1 x2 y2 : Int) (v0 v1 v2 v3 : Vec3) (t0 t1 t2 t3 : Int × Int),
          (mv.drop (4 * k)).take 4 = [x1, y1, x2, y2] ∧
          vertexAt m.verts (4 * k) = some (v0, t0) ∧
          vertexAt m.verts (4 * k + 1) = some (v1, t1) ∧
          vertexAt m.verts (4 * k + 2) = some (v2, t2) ∧
          vertexAt m.verts (4 * k + 3) = some (v3, t3) ∧
          ∀ pt : Int × Int, pt ∈ [(x1, y1), (x2, y2)] ↔
            pt ∈ [(v0.x, v0.z), (v1.x, v1.z), (v2.x, v2.z), (v3.x, v3.z)] :=
  ⟨by simp, minimap_mesh_agree 10 (List.replicate (10 * 10) ({} : Cell)) (by simp)⟩


/-! ## Access safety of the generator: the claim -/

theorem readAt_eq {N : Nat} {x y : Int} (h : InB N x y) (maze : List Cell) :
    readAt N maze x y = readCell maze (idx N x y) := by
  unfold readAt
  rw [if_pos h]

theorem probeChecked_eq (N : Nat) (maze : List Cell) (guard : Bool) (x y d : Int)
    (hg : guard = true → InB N x y) (dirs : List Int) :
    probeChecked N maze guard x y d dirs = probe N maze guard x y d dirs := by
  unfold probeChecked probe
  cases guard with
  | false => rfl
  | true => rw [readAt_eq (hg rfl)]

theorem candidatesChecked_eq {N : Nat} {x y : Int} (h : InB N x y) (maze : List Cell) :
    candidatesChecked N maze x y = candidates N maze x y := by
  obtain ⟨hx0, hx1, hy0, hy1⟩ := h
  have p0 := probeChecked_eq N maze (decide (x > 0)) (x - 1) y 0
    (by intro g; simp at g; unfold InB; omega)
  have p1 := probeChecked_eq N maze (decide (y > 0)) x (y - 1) 1
    (by intro g; simp at g; unfold InB; omega)
  have p2 := probeChecked_eq N maze (decide (x < (N : Int) - 1)) (x + 1) y 2
    (by intro g; simp at g; unfold InB; omega)
  have p3 := probeChecked_eq N maze (decide (y < (N : Int) - 1)) x (y + 1) 3
    (by intro g; simp at g; unfold InB; omega)
  unfold candidatesChecked candidates
  simp only [p0, p1, p2, p3]

theorem clearWallChecked_eq {N : Nat} {x y : Int} (h : InB N x y) (maze : List Cell)
    (d : Int) : clearWallChecked N maze x y d = clearWall N maze x y d := by
  unfold clearWallChecked clearWall
  rw [readAt_eq h]

theorem markVisitedChecked_eq {N : Nat} {x y : Int} (h : InB N x y) (maze : List Cell) :
    markVisitedChecked N maze x y = markVisited N maze x y := by
  unfold markVisitedChecked markVisited
  rw [readAt_eq h]

/-- On a state that satisfies the loop invariant the checked iteration makes no
fault that the plain iteration does not make: both give the same result. -/
theorem stepChecked_eq {N : Nat} {sx sy : Int} (rng : Nat → Nat) {s : GenState}
    (h : GenInv N sx sy s) : stepChecked N rng s = step N rng s := by
  cases hst : s.st with
  | nil =>
    unfold stepChecked step
    rw [hst]
  | cons p rest =>
    obtain ⟨x, y⟩ := p
    have hxy : InB N x y := (h.stack (x, y) (by rw [hst]; exact List.mem_cons_self _ _)).1
    obtain ⟨dirs, hdirs, hmem⟩ := candidates_spec h.len hxy
    unfold stepChecked step
    rw [hst]
    simp only [Option.bind_eq_bind, candidatesChecked_eq hxy, hdirs, Option.some_bind]
    by_cases he : dirs = []
    · subst he
      rfl
    · have hlen : 0 < dirs.length := List.length_pos.2 he
      have hlt : rng s.draws % dirs.length < dirs.length := Nat.mod_lt _ hlen
      have hne : dirs.isEmpty = false := by
        cases dirs with
        | nil => exact absurd rfl he
        | cons _ _ => rfl
      obtain ⟨i, hi, hb, hv⟩ := (hmem _).1 (List.getElem_mem hlt)
      rw [hne, List.getElem?_eq_getElem hlt]
      simp only [Bool.false_eq_true, if_false, if_neg (Nat.pos_iff_ne_zero.1 hlen),
        Option.some_bind, clearWallChecked_eq hxy, clearWallChecked_eq hb,
        markVisitedChecked_eq hb]

theorem iterChecked_eq {N : Nat} {sx sy : Int} (rng : Nat → Nat) {s0 : GenState}
    (h0 : GenInv N sx sy s0) (n : Nat) : iterChecked N rng n s0 = iter N rng n s0 := by
  induction n with
  | zero => rfl
  | succ n ih =>
    obtain ⟨s, hs, hinv⟩ := iter_inv rng h0 n
    simp only [iterChecked, iter, ih, hs, Option.some_bind]
    exact stepChecked_eq rng hinv

theorem initStateChecked_eq {N : Nat} (old : List Cell) {sx sy : Int} (hs : InB N sx sy) :
    initStateChecked N old sx sy = initState N old sx sy := by
  unfold initStateChecked initState
  rw [markVisitedChecked_eq hs]

theorem opposite_dir (d : Int) (h0 : 0 ≤ d) (h4 : d < 4) :
    0 ≤ (d + 2) % 4 ∧ (d + 2) % 4 < 4 ∧ dxOf ((d + 2) % 4) = -dxOf d ∧
      dyOf ((d + 2) % 4) = -dyOf d := by
  interval_cases d <;> decide

/-- C18: for an in-grid start cell and every sequence of random choices, the
generator in which every access `maze[idx(x, y)]` (current cell, the four
neighbour probes, the chosen neighbour) faults unless `0 ≤ x, y < N`, every
`walls[d]` faults unless `0 ≤ d < 4`, and the random pick faults when
`dirs.size()` is zero, reaches a state after every number of loop iterations, the
same state as the plain generator: the out-of-bounds and division-by-zero
branches are unreachable.  In-grid coordinates give an index below `N * N`, and
for a direction `d` in `0..3` the index `(d + 2) % 4` is in `0..3` and is the
opposite direction. -/
theorem generateMaze_accesses_safe (N : Nat) (old : List Cell) (sx sy : Int)
    (rng : Nat → Nat) (hs : InB N sx sy) :
    (∀ n : Nat, ∃ s0 s, initStateChecked N old sx sy = some s0 ∧
      iterChecked N rng n s0 = some s ∧
      initState N old sx sy = some s0 ∧ iter N rng n s0 = some s) ∧
    (∀ x y : Int, InB N x y → 0 ≤ idx N x y ∧ idx N x y < (N : Int) * (N : Int)) ∧
    (∀ d : Int, 0 ≤ d → d < 4 →
      0 ≤ (d + 2) % 4 ∧ (d + 2) % 4 < 4 ∧ dxOf ((d + 2) % 4) = -dxOf d ∧
        dyOf ((d + 2) % 4) = -dyOf d) := by
  obtain ⟨s0, hs0, h0, _⟩ := init_inv old hs
  refine ⟨?_, fun x y h => idx_bounds h, opposite_dir⟩
  intro n
  obtain ⟨s, hit, _⟩ := iter_inv rng h0 n
  exact ⟨s0, s, by rw [initStateChecked_eq old hs, hs0], by rw [iterChecked_eq rng h0, hit],
    hs0, hit⟩

theorem generateMaze_accesses_safe_witness :
    InB 10 0 0 ∧
    ((∀ n : Nat, ∃ s0 s, initStateChecked 10 [] 0 0 = some s0 ∧
      iterChecked 10 (fun k => k) n s0 = some s ∧
      initState 10 [] 0 0 = some s0 ∧ iter 10 (fun k => k) n s0 = some s) ∧
    (∀ x y : Int, InB 10 x y →
      0 ≤ idx 10 x y ∧ idx 10 x y < ((10 : Nat) : Int) * ((10 : Nat) : Int)) ∧
    (∀ d : Int, 0 ≤ d → d < 4 →
      0 ≤ (d + 2) % 4 ∧ (d + 2) % 4 < 4 ∧ dxOf ((d + 2) % 4) = -dxOf d ∧
        dyOf ((d + 2) % 4) = -dyOf d)) :=
  ⟨by decide, generateMaze_accesses_safe 10 [] 0 0 (fun k => k) (by decide)⟩


end Maze3D
